import Mathlib

/-!
Verification of the aided fine-grained reactive runtime: shallow embedding of
the scheduler, signal, effect-graph, lifecycle (scope) and LIS engine,
together with theorems settling the specification's claims.

Effects (computations) and cells (signals) are identified by natural-number
ids.  JavaScript `Set`s are modelled as insertion-ordered duplicate-free
lists; `Set.add` is `addElem` below.
-/

namespace Aided

/-- JS `Set.add`: append unless already a member (insertion order kept). -/
def addElem (l : List Nat) (x : Nat) : List Nat :=
  if x ∈ l then l else l ++ [x]

/-! ## Scheduler (src/unnamed/part_004)

`dirtyEffects` is the deduplicating dirty set (insertion order),
`isBatching` the single pending-flush flag, and `pendingFlushes` counts how
many flush microtasks have been queued via `queueMicrotask`. -/

structure SchedState where
  dirtyEffects : List Nat
  isBatching : Bool
  pendingFlushes : Nat
deriving DecidableEq

/-- `flushQueue()`: if already batching do nothing, else set the flag and
queue one flush microtask. -/
def flushQueueM (s : SchedState) : SchedState :=
  if s.isBatching then s
  else { s with isBatching := true, pendingFlushes := s.pendingFlushes + 1 }

/-- The flush body `dirtyEffects.forEach((effect) => effect.execute())`.
JS `Set.forEach` visits members in insertion order and also visits members
added during the iteration; re-adding an existing member does not revisit
it.  `queue` is the dirty set as an ordered list, `i` the number of members
already visited, `exec e` the list of effects that running `e` marks dirty.
The returned list is the execution trace (each effect run, in order). -/
def flushLoop (exec : Nat → List Nat) : Nat → List Nat → Nat → List Nat
  | 0, queue, i => queue.take i
  | fuel + 1, queue, i =>
    if h : i < queue.length then
      flushLoop exec fuel ((exec (queue.get ⟨i, h⟩)).foldl addElem queue) (i + 1)
    else queue.take i

/-! ## Signal (src/packages/core/src/primitives/signal.ts) -/

structure SignalState (α : Type) where
  value : α
  subscribers : List Nat
deriving DecidableEq

/-- `write(newValue)`: no-op when `Object.is(value, newValue)` (modelled as
decidable equality); otherwise store the new value, add every current
subscriber to the dirty set, and call `flushQueue()`. -/
def writeSig {α : Type} [DecidableEq α] (newValue : α) (sig : SignalState α)
    (s : SchedState) : SignalState α × SchedState :=
  if sig.value = newValue then (sig, s)
  else
    ({ sig with value := newValue },
      flushQueueM { s with dirtyEffects := sig.subscribers.foldl addElem s.dirtyEffects })

/-! ## Dependency graph: signals' subscriber sets and effects' dependency
sets (signal.ts `read`, part_004 `cleanup`, effect.ts `execute`).

`subs c` is the subscriber set of cell `c`; `deps e` is the dependency set
of effect `e` (the reverse edges held on the effect itself). -/

structure Graph where
  subs : Nat → List Nat
  deps : Nat → List Nat

/-- `read()` while effect `e` is on top of the effect stack:
`subscribers.add(currentEffect); currentEffect.dependencies.add(subscribers)`. -/
def readCell (g : Graph) (c e : Nat) : Graph where
  subs := fun c2 => if c2 = c then addElem (g.subs c2) e else g.subs c2
  deps := fun e2 => if e2 = e then addElem (g.deps e2) c else g.deps e2

/-- `cleanup(effect)`: remove the effect from every dependency's subscriber
set, then clear its dependency set. -/
def cleanupE (g : Graph) (e : Nat) : Graph where
  subs := fun c => if c ∈ g.deps e then (g.subs c).filter (fun x => x ≠ e) else g.subs c
  deps := fun e2 => if e2 = e then [] else g.deps e2

/-- `effect.execute()` with a body that reads exactly the cells in `reads`
(in order): cleanup, then each read re-subscribes dynamically. -/
def executeE (g : Graph) (e : Nat) (reads : List Nat) : Graph :=
  reads.foldl (fun g2 c => readCell g2 c e) (cleanupE g e)

/-- Symmetry of the subscription relation: an effect sits in a cell's
subscriber set iff that cell sits in the effect's dependency set. -/
def Symm (g : Graph) : Prop :=
  ∀ c e, e ∈ g.subs c ↔ c ∈ g.deps e

/-! ## Lifecycle (src/packages/core/src/lifecycle/lifecycle.ts)

Cleanup functions are identified by ids; running one appends its id to a
trace.  `LcState` carries the global `currentOwner` pointer plus arbitrary
further state `σ` a body may mutate. -/

structure OwnerState where
  cleanups : List Nat
deriving DecidableEq

/-- `onCleanup(fn)` with an active owner: push onto the cleanup list. -/
def onCleanupM (o : OwnerState) (c : Nat) : OwnerState :=
  { cleanups := o.cleanups ++ [c] }

/-- The dispose loop `for (let i = cleanups.length - 1; i >= 0; i--)
cleanups[i]()`, returning the call trace; argument = `i + 1`. -/
def runCleanupsLoop (cleanups : List Nat) : Nat → List Nat
  | 0 => []
  | i + 1 => cleanups.getD i 0 :: runCleanupsLoop cleanups i

/-- `dispose()` on an owner: run the cleanup list last-registered first,
then clear it.  Returns the trace of cleanup calls and the new owner. -/
def disposeM (o : OwnerState) : List Nat × OwnerState :=
  (runCleanupsLoop o.cleanups o.cleanups.length, { cleanups := [] })

structure LcState (σ : Type) where
  currentOwner : Option Nat
  data : σ

/-- `createRoot(fn)`: save the parent owner, make the fresh root (id
`rootId`) current, run the body, and restore the parent in a `finally`
whether the body returned normally (`false`) or threw (`true`). -/
def createRootM {σ : Type} (fn : LcState σ → Bool × LcState σ)
    (rootId : Nat) (s : LcState σ) : Bool × LcState σ :=
  let parentOwner := s.currentOwner
  let r := fn { s with currentOwner := some rootId }
  (r.1, { r.2 with currentOwner := parentOwner })

/-- The cleanup loop of `dispose()` when cleanup `c` throws iff
`throws c = true`: the loop stops at the first throwing cleanup; returns
the ids actually run and whether an exception escaped. -/
def runCleanupsExc (throws : Nat → Bool) (cleanups : List Nat) : Nat → List Nat × Bool
  | 0 => ([], false)
  | i + 1 =>
    let c := cleanups.getD i 0
    if throws c then ([c], true)
    else
      let r := runCleanupsExc throws cleanups i
      (c :: r.1, r.2)

/-- `dispose()` including the owner save/restore: set `currentOwner` to the
root, run the cleanups (possibly throwing), restore the previous owner in
the `finally`.  Returns (trace, exception escaped, final state). -/
def disposeExcM {σ : Type} (throws : Nat → Bool) (o : OwnerState) (rootId : Nat)
    (s : LcState σ) : List Nat × Bool × LcState σ :=
  let prevOwner := s.currentOwner
  let s1 : LcState σ := { s with currentOwner := some rootId }
  let r := runCleanupsExc throws o.cleanups o.cleanups.length
  (r.1, r.2, { s1 with currentOwner := prevOwner })

/-! ## LIS engine (src/unnamed/part_003)

The input is a numeric sequence (`List Int`); the value `-1` marks a
position to skip.  `lis_smallM` embeds `lis_small` (growable arrays):
`preds` is the `predecessors` array, grown one slot per processed index;
`tails` holds exactly the `len` meaningful entries of the `tails` array. -/

/-- The binary search `while (lo < hi) { mid = (lo+hi)>>>1; ... }` for the
leftmost `tails` position whose referenced value is `≥ num`; structural
fuel bounds the iteration count (each step shrinks `hi - lo`). -/
def bsearchFuel (seq : List Int) (tails : List Nat) (num : Int) :
    Nat → Nat → Nat → Nat
  | 0, lo, _ => lo
  | fuel + 1, lo, hi =>
    if lo < hi then
      if seq.getD (tails.getD ((lo + hi) / 2) 0) 0 < num then
        bsearchFuel seq tails num fuel ((lo + hi) / 2 + 1) hi
      else bsearchFuel seq tails num fuel lo ((lo + hi) / 2)
    else lo

/-- The binary search entered with range `[lo, hi)`. -/
def bsearchGo (seq : List Int) (tails : List Nat) (num : Int) (lo hi : Nat) : Nat :=
  bsearchFuel seq tails num (hi - lo) lo hi

structure LisSt where
  preds : List Int
  tails : List Nat
deriving DecidableEq

/-- The insertion part of one `lis_small` iteration, after the binary
search found position `lo`: record the predecessor
(`tails[lo-1] ?? -1`, `-1` when `lo === 0`), write `tails[lo] = i`
(extending `len` when `lo === len`). -/
def lisInsert (st : LisSt) (i lo : Nat) : LisSt :=
  { preds := st.preds ++ [if lo = 0 then -1 else ((st.tails.getD (lo - 1) 0 : Nat) : Int)],
    tails := if lo = st.tails.length then st.tails ++ [i] else st.tails.set lo i }

/-- One iteration of the `lis_small` main loop at index `i`: skip the `-1`
sentinel (recording `-1` as its predecessor entry), else binary-search and
insert. -/
def lisStep (seq : List Int) (st : LisSt) (i : Nat) : LisSt :=
  if seq.getD i 0 = -1 then
    { st with preds := st.preds ++ [-1] }
  else
    lisInsert st i (bsearchGo seq st.tails (seq.getD i 0) 0 st.tails.length)

/-- The whole `for (let i = 0; i < n; i++)` loop of `lis_small`. -/
def lisLoop (seq : List Int) : LisSt :=
  (List.range seq.length).foldl (lisStep seq) ⟨[], []⟩

/-- The reconstruction loop `for (i = len-1; i >= 0; i--) { lis[i] = k;
k = predecessors[k]; }`; first argument is the number of slots left. -/
def reconstructGo (preds : List Int) : Nat → Int → List Nat
  | 0, _ => []
  | cnt + 1, k => reconstructGo preds cnt (preds.getD k.toNat 0) ++ [k.toNat]

/-- `lis_small`, including its `n = 0` / `n = 1` short-circuits. -/
def lis_smallM (seq : List Int) : List Nat :=
  let n := seq.length
  if n = 0 then []
  else if n = 1 then (if seq.getD 0 0 = -1 then [] else [0])
  else
    let st := lisLoop seq
    if st.tails.length = 0 then []
    else reconstructGo st.preds st.tails.length ((st.tails.getD (st.tails.length - 1) 0 : Nat) : Int)

/-! `lis_largeM` embeds `lis_large`: one `Uint32Array` buffer of `2 * n`
unsigned words (modelled as `Nat` values stored `% 2^32`), split into a
`predecessors` view and a `tails` view; `SENTINEL = 0xFFFFFFFF` marks "no
predecessor"; `len` is tracked separately since the view has fixed width. -/

def SENTINEL : Nat := 0xFFFFFFFF

def U32MOD : Nat := 4294967296

structure LisStL where
  preds : List Nat
  tails : List Nat
  len : Nat
deriving DecidableEq

/-- The insertion part of one `lis_large` iteration at search position
`lo`: store the predecessor (`tails[lo-1]` when `lo > 0`, else `SENTINEL`)
and the new tail, all through `Uint32Array` stores (`% 2^32`). -/
def lisInsertL (st : LisStL) (i lo : Nat) : LisStL :=
  { preds := st.preds.set i ((if 0 < lo then st.tails.getD (lo - 1) 0 else SENTINEL) % U32MOD),
    tails := st.tails.set lo (i % U32MOD),
    len := if lo = st.len then st.len + 1 else st.len }

/-- One iteration of the `lis_large` main loop at index `i`. -/
def lisStepL (seq : List Int) (st : LisStL) (i : Nat) : LisStL :=
  if seq.getD i 0 = -1 then
    { st with preds := st.preds.set i (SENTINEL % U32MOD) }
  else
    lisInsertL st i (bsearchGo seq st.tails (seq.getD i 0) 0 st.len)

/-- The whole main loop of `lis_large` over the buffer views. -/
def lisLoopL (seq : List Int) (preds0 tails0 : List Nat) : LisStL :=
  (List.range seq.length).foldl (lisStepL seq) ⟨preds0, tails0, 0⟩

/-- Reconstruction loop of `lis_large`: follow `pred = predecessors[k]`,
with `k = pred` when `pred !== SENTINEL`, else `k = -1`. -/
def reconstructGoL (preds : List Nat) : Nat → Int → List Nat
  | 0, _ => []
  | cnt + 1, k =>
    reconstructGoL preds cnt
      (if preds.getD k.toNat 0 = SENTINEL then -1 else (preds.getD k.toNat 0 : Int))
      ++ [k.toNat]

/-- The work-buffer choice of `lis_large`: use the caller's buffer when
present and of length `≥ 2 * n`, else allocate a fresh zeroed
`Uint32Array(2n)` (undersized buffers are ignored). -/
def chooseBuffer (n : Nat) (workBuffer : Option (List Nat)) : List Nat :=
  match workBuffer with
  | some b => if 2 * n ≤ b.length then b else List.replicate (2 * n) 0
  | none => List.replicate (2 * n) 0

/-- `lis_large` with an optional caller-supplied work buffer.  The two
views are `buffer.subarray(0, n)` and `buffer.subarray(n, 2n)`. -/
def lis_largeM (seq : List Int) (workBuffer : Option (List Nat)) : List Nat :=
  let n := seq.length
  if n = 0 then []
  else if n = 1 then (if seq.getD 0 0 = -1 then [] else [0])
  else
    let st := lisLoopL seq ((chooseBuffer n workBuffer).take n)
      (((chooseBuffer n workBuffer).drop n).take n)
    if st.len = 0 then []
    else reconstructGoL st.preds st.len ((st.tails.getD (st.len - 1) 0 : Nat) : Int)

/-! The dispatcher `longestIncreasingSubsequence` with its runtime input
validation.  A JS `ArrayLike` argument is modelled by `ArrayLikeM`:
it may be null/undefined, have a `length` that is not a number, have a
non-finite `length`, or be a well-formed array of numbers. -/

inductive ArrayLikeM where
  | nullish
  | badLength
  | nonFiniteLength
  | arr (elems : List Int)
deriving DecidableEq

/-- `longestIncreasingSubsequence(seq, workBuffer)` with the configured
`smallArrayThreshold` (default 64) passed explicitly. -/
def longestIncreasingSubsequenceM (threshold : Nat) (input : ArrayLikeM)
    (workBuffer : Option (List Nat)) : List Nat :=
  match input with
  | .nullish => []
  | .badLength => []
  | .nonFiniteLength => []
  | .arr elems =>
    let n := elems.length
    if n = 0 then []
    else if n < threshold then lis_smallM elems
    else lis_largeM elems workBuffer

/-- A valid strictly-increasing subsequence over non-skipped entries,
given as its index list: indices strictly increasing, values strictly
increasing, every index in range and not skip-marked.  (Spec vocabulary
for the LIS claims.) -/
def ValidChain (seq : List Int) (l : List Nat) : Prop :=
  l.Pairwise (fun a b => a < b ∧ seq.getD a 0 < seq.getD b 0) ∧
    ∀ x ∈ l, x < seq.length ∧ seq.getD x 0 ≠ -1

instance (seq : List Int) (l : List Nat) : Decidable (ValidChain seq l) := by
  unfold ValidChain
  exact instDecidableAnd

/-- `Supports seq preds k j`: starting from index `k`, the recorded
predecessor chain witnesses a valid increasing subsequence of length
`j + 1` ending at `k`. -/
def Supports (seq preds : List Int) : Nat → Nat → Prop
  | k, 0 => k < seq.length ∧ seq.getD k 0 ≠ -1 ∧ k < preds.length
  | k, j + 1 =>
    k < seq.length ∧ seq.getD k 0 ≠ -1 ∧ k < preds.length ∧
      ∃ p : Nat, preds.getD k 0 = (p : Int) ∧ p < k ∧
        seq.getD p 0 < seq.getD k 0 ∧ Supports seq preds p j

/-- The loop invariant of both LIS main loops after processing the first
`i` input positions: `preds` has one entry per processed position (`-1` or
a smaller index); `tails` holds `len` indices of non-skipped processed
positions whose values strictly increase; entry `j` roots a recorded
predecessor chain of length `j + 1`; and `tails[m]` holds the minimal
achievable last value over all valid chains of length `m + 1` inside the
processed prefix. -/
structure LisInv (seq : List Int) (i : Nat) (st : LisSt) : Prop where
  predsLen : st.preds.length = i
  predsVals : ∀ j, j < i →
    st.preds.getD j 0 = -1 ∨ ∃ p : Nat, st.preds.getD j 0 = (p : Int) ∧ p < j
  tailsLen : st.tails.length ≤ i
  tailsMem : ∀ j, j < st.tails.length →
    st.tails.getD j 0 < i ∧ seq.getD (st.tails.getD j 0) 0 ≠ -1
  sorted : ∀ j1 j2, j1 < j2 → j2 < st.tails.length →
    seq.getD (st.tails.getD j1 0) 0 < seq.getD (st.tails.getD j2 0) 0
  supports : ∀ j, j < st.tails.length → Supports seq st.preds (st.tails.getD j 0) j
  minimal : ∀ (l : List Nat) (a : Nat), ValidChain seq (l ++ [a]) →
    (∀ x ∈ l ++ [a], x < i) →
    l.length + 1 ≤ st.tails.length ∧
    seq.getD (st.tails.getD l.length 0) 0 ≤ seq.getD a 0

/-- How `lis_large` encodes a `lis_small` predecessor entry in its
unsigned buffer: `-1` ("none") becomes `SENTINEL`, an index is stored as
itself. -/
def encodePred (x : Int) : Nat :=
  if x = -1 then SENTINEL else x.toNat

/-- The simulation relation between the small-path state and the
large-path state after `i` processed positions: the buffer views keep
their fixed width, `len` matches the small path's grown `tails`, and the
written prefixes agree (predecessors up to the `SENTINEL` encoding). -/
structure LisRel (seq : List Int) (i : Nat) (stS : LisSt) (stL : LisStL) : Prop where
  predsLenL : stL.preds.length = seq.length
  tailsLenL : stL.tails.length = seq.length
  lenEq : stL.len = stS.tails.length
  tailsEq : ∀ j, j < stL.len → stL.tails.getD j 0 = stS.tails.getD j 0
  predsEq : ∀ j, j < i → stL.preds.getD j 0 = encodePred (stS.preds.getD j 0)

/-! ## LIS over full JS number semantics (NaN included)

The `List Int` model above cannot express `NaN`, which the source accepts:
`NaN === -1` is false (so NaN is *not* skipped) and every `<` comparison
involving NaN is false.  `JSNum` adds the NaN point; out-of-range
`ArrayLike` reads yield `undefined`, whose comparisons are also all false,
so `.nan` doubles as the read default.  The engines are re-embedded over
`JSNum` with these comparison semantics, unchanged otherwise. -/

inductive JSNum where
  | num (v : Int)
  | nan
deriving DecidableEq

/-- JS `<` on numbers: false whenever either side is NaN. -/
def jslt : JSNum → JSNum → Bool
  | .num a, .num b => decide (a < b)
  | _, _ => false

/-- JS `=== -1`: false for NaN. -/
def isNegOne : JSNum → Bool
  | .num a => decide (a = -1)
  | .nan => false

/-- Forgetting the NaN point (arbitrary at NaN; used only on NaN-free
sequences). -/
def decodeJS : JSNum → Int
  | .num v => v
  | .nan => 0

def decodeSeq (seq : List JSNum) : List Int :=
  seq.map decodeJS

/-- The LIS binary search over JS numbers. -/
def bsearchFuelJS (seq : List JSNum) (tails : List Nat) (num : JSNum) :
    Nat → Nat → Nat → Nat
  | 0, lo, _ => lo
  | fuel + 1, lo, hi =>
    if lo < hi then
      if jslt (seq.getD (tails.getD ((lo + hi) / 2) 0) .nan) num then
        bsearchFuelJS seq tails num fuel ((lo + hi) / 2 + 1) hi
      else bsearchFuelJS seq tails num fuel lo ((lo + hi) / 2)
    else lo

def bsearchGoJS (seq : List JSNum) (tails : List Nat) (num : JSNum) (lo hi : Nat) : Nat :=
  bsearchFuelJS seq tails num (hi - lo) lo hi

/-- One `lis_small` iteration over JS numbers. -/
def lisStepJS (seq : List JSNum) (st : LisSt) (i : Nat) : LisSt :=
  if isNegOne (seq.getD i .nan) then
    { st with preds := st.preds ++ [-1] }
  else
    lisInsert st i (bsearchGoJS seq st.tails (seq.getD i .nan) 0 st.tails.length)

def lisLoopJS (seq : List JSNum) : LisSt :=
  (List.range seq.length).foldl (lisStepJS seq) ⟨[], []⟩

/-- `lis_small` over JS numbers. -/
def lis_smallJS (seq : List JSNum) : List Nat :=
  if seq.length = 0 then []
  else if seq.length = 1 then (if isNegOne (seq.getD 0 .nan) then [] else [0])
  else
    if (lisLoopJS seq).tails.length = 0 then []
    else reconstructGo (lisLoopJS seq).preds (lisLoopJS seq).tails.length
      (((lisLoopJS seq).tails.getD ((lisLoopJS seq).tails.length - 1) 0 : Nat) : Int)

/-- One `lis_large` iteration over JS numbers. -/
def lisStepLJS (seq : List JSNum) (st : LisStL) (i : Nat) : LisStL :=
  if isNegOne (seq.getD i .nan) then
    { st with preds := st.preds.set i (SENTINEL % U32MOD) }
  else
    lisInsertL st i (bsearchGoJS seq st.tails (seq.getD i .nan) 0 st.len)

def lisLoopLJS (seq : List JSNum) (preds0 tails0 : List Nat) : LisStL :=
  (List.range seq.length).foldl (lisStepLJS seq) ⟨preds0, tails0, 0⟩

/-- `lis_large` over JS numbers. -/
def lis_largeJS (seq : List JSNum) (workBuffer : Option (List Nat)) : List Nat :=
  let n := seq.length
  if n = 0 then []
  else if n = 1 then (if isNegOne (seq.getD 0 .nan) then [] else [0])
  else
    let st := lisLoopLJS seq ((chooseBuffer n workBuffer).take n)
      (((chooseBuffer n workBuffer).drop n).take n)
    if st.len = 0 then []
    else reconstructGoL st.preds st.len ((st.tails.getD (st.len - 1) 0 : Nat) : Int)

/-- A JS `ArrayLike` of numbers, NaN entries included. -/
inductive ArrayLikeJS where
  | nullish
  | badLength
  | nonFiniteLength
  | arr (elems : List JSNum)
deriving DecidableEq

/-- The dispatcher `longestIncreasingSubsequence` over JS numbers. -/
def longestIncreasingSubsequenceJS (threshold : Nat) (input : ArrayLikeJS)
    (workBuffer : Option (List Nat)) : List Nat :=
  match input with
  | .nullish => []
  | .badLength => []
  | .nonFiniteLength => []
  | .arr elems =>
    let n := elems.length
    if n = 0 then []
    else if n < threshold then lis_smallJS elems
    else lis_largeJS elems workBuffer

/-- A valid strictly-increasing subsequence over non-skipped entries of a
JS-number sequence: indices strictly increasing, JS `<` holding between
consecutive values, every index in range and its entry not `=== -1`. -/
def ValidChainJS (seq : List JSNum) (l : List Nat) : Prop :=
  l.Pairwise (fun a b => a < b ∧ jslt (seq.getD a .nan) (seq.getD b .nan) = true) ∧
    ∀ x ∈ l, x < seq.length ∧ seq.getD x .nan ≠ .num (-1)

instance (seq : List JSNum) (l : List Nat) : Decidable (ValidChainJS seq l) := by
  unfold ValidChainJS
  exact instDecidableAnd

/-! ## Keyed reconciler reorder pass (src/unnamed/part_000, Pass 3)

Items are identified by their string keys; `seqIdx` maps each new-order
position to the node's old-order position (`none` = new node, encoded `-1`
for the LIS call).  `reorderGo` embeds the backward walk with the `cur`
cursor into the LIS and classifies each position. -/

inductive MoveAction where
  | insertNew
  | move
  | stable
deriving DecidableEq

/-- The backward loop `for (let i = newNodes.length - 1; i >= 0; i--)`:
the first argument is `i + 1`; the result lists the action taken at each
new-order position, in position order. -/
def reorderGo (seqIdx : List (Option Nat)) (lis : List Nat) : Nat → Int → List MoveAction
  | 0, _ => []
  | i + 1, cur =>
    match seqIdx.getD i none with
    | none => reorderGo seqIdx lis i cur ++ [.insertNew]
    | some _ =>
      if cur < 0 ∨ i ≠ lis.getD cur.toNat 0 then reorderGo seqIdx lis i cur ++ [.move]
      else reorderGo seqIdx lis i (cur - 1) ++ [.stable]

/-- Pass 3 of the `For` reconciler for surviving keyed items: build the
old-position sequence, run the LIS dispatcher over it (`-1` for new keys),
and classify every new-order position via the backward walk. -/
def reconcileActions (oldKeys newKeys : List String) : List MoveAction :=
  let seqIdx := newKeys.map (fun k => oldKeys.indexOf? k)
  let seqInt := seqIdx.map (fun o => match o with | none => (-1 : Int) | some v => (v : Int))
  let lis := longestIncreasingSubsequenceM 64 (.arr seqInt) none
  reorderGo seqIdx lis seqIdx.length ((lis.length : Int) - 1)

/-! ## Helper lemmas -/

theorem mem_addElem {l : List Nat} {x y : Nat} : x ∈ addElem l y ↔ x ∈ l ∨ x = y := by
  unfold addElem
  split
  · next h => exact ⟨Or.inl, fun h2 => h2.elim id (fun e => e ▸ h)⟩
  · simp

theorem nodup_addElem {l : List Nat} (hl : l.Nodup) (y : Nat) : (addElem l y).Nodup := by
  unfold addElem
  split
  · exact hl
  · next h => simp [List.nodup_append, hl, h]

theorem nodup_foldl_addElem {l : List Nat} (hl : l.Nodup) (xs : List Nat) :
    (xs.foldl addElem l).Nodup := by
  induction xs generalizing l with
  | nil => exact hl
  | cons x xs ih => exact ih (nodup_addElem hl x)

theorem mem_foldl_addElem {l : List Nat} {x : Nat} (xs : List Nat)
    (h : x ∈ l ∨ x ∈ xs) : x ∈ xs.foldl addElem l := by
  induction xs generalizing l with
  | nil => simpa using h
  | cons y ys ih =>
    refine ih ?_
    rcases h with h | h
    · exact Or.inl (mem_addElem.mpr (Or.inl h))
    · rcases List.mem_cons.mp h with rfl | h
      · exact Or.inl (mem_addElem.mpr (Or.inr rfl))
      · exact Or.inr h

theorem nodup_flushLoop (exec : Nat → List Nat) (fuel : Nat) :
    ∀ (queue : List Nat) (i : Nat), queue.Nodup → (flushLoop exec fuel queue i).Nodup := by
  induction fuel with
  | zero => intro queue i h; exact h.sublist (List.take_sublist i queue)
  | succ fuel ih =>
    intro queue i h
    unfold flushLoop
    split
    · exact ih _ _ (nodup_foldl_addElem h _)
    · exact h.sublist (List.take_sublist i queue)

theorem flushQueueM_dirty (s : SchedState) :
    (flushQueueM s).dirtyEffects = s.dirtyEffects := by
  unfold flushQueueM
  split <;> rfl

theorem flushQueueM_batching (s : SchedState) : (flushQueueM s).isBatching = true := by
  unfold flushQueueM
  split
  · next h => exact h
  · rfl

theorem flushQueueM_pending_of_batching (s : SchedState) (h : s.isBatching = true) :
    (flushQueueM s).pendingFlushes = s.pendingFlushes := by
  unfold flushQueueM
  rw [if_pos h]

theorem writeSig_changed {α : Type} [DecidableEq α] (v : α) (sig : SignalState α)
    (s : SchedState) (h : ¬sig.value = v) :
    writeSig v sig s = ({ sig with value := v },
      flushQueueM { s with dirtyEffects := sig.subscribers.foldl addElem s.dirtyEffects }) := by
  unfold writeSig
  rw [if_neg h]

/-! ## C4 — scheduler batching -/

/-- C4: for every sequence of synchronous writes before the next flush,
the flush's execution trace runs each affected computation at most once
(the trace is duplicate-free, for any behaviour `exec` of the computation
bodies, which may re-dirty further computations mid-flush); and a write
landing while a flush is in progress (`isBatching = true`) schedules no
second flush (`pendingFlushes` unchanged) and is absorbed into the same
in-progress dirty set. -/
theorem scheduler_batches_once (exec : Nat → List Nat) (fuel : Nat)
    (writes : List (List Nat)) (v : Int) (sig : SignalState Int) (s : SchedState)
    (hb : s.isBatching = true) (hv : sig.value ≠ v) :
    (flushLoop exec fuel (writes.foldl (fun d subs => subs.foldl addElem d) []) 0).Nodup
    ∧ (writeSig v sig s).2.pendingFlushes = s.pendingFlushes
    ∧ (writeSig v sig s).2.dirtyEffects = sig.subscribers.foldl addElem s.dirtyEffects
    ∧ (writeSig v sig s).2.isBatching = true := by
  refine ⟨?_, ?_⟩
  · refine nodup_flushLoop exec fuel _ 0 ?_
    have : ∀ (ws : List (List Nat)) (d : List Nat), d.Nodup →
        (ws.foldl (fun d subs => subs.foldl addElem d) d).Nodup := by
      intro ws
      induction ws with
      | nil => intro d hd; exact hd
      | cons w ws ih => intro d hd; exact ih _ (nodup_foldl_addElem hd w)
    exact this writes [] List.nodup_nil
  · rw [writeSig_changed v sig s hv]
    exact ⟨flushQueueM_pending_of_batching _ hb, flushQueueM_dirty _, flushQueueM_batching _⟩

/-- Witness for `scheduler_batches_once` at a concrete in-flush write. -/
theorem scheduler_batches_once_witness :
    (flushLoop (fun _ => [5]) 3 ([[1, 2], [2, 3]].foldl (fun d subs => subs.foldl addElem d) []) 0).Nodup
    ∧ (writeSig (7 : Int) ⟨0, [4]⟩ ⟨[9], true, 1⟩).2.pendingFlushes = 1
    ∧ (writeSig (7 : Int) ⟨0, [4]⟩ ⟨[9], true, 1⟩).2.dirtyEffects
        = ([4] : List Nat).foldl addElem [9]
    ∧ (writeSig (7 : Int) ⟨0, [4]⟩ ⟨[9], true, 1⟩).2.isBatching = true :=
  scheduler_batches_once (fun _ => [5]) 3 [[1, 2], [2, 3]] 7 ⟨0, [4]⟩ ⟨[9], true, 1⟩ rfl
    (by decide)

/-! ## C5 — identity-equal write is a no-op -/

/-- C5: a write whose new value is identity-equal to the current value
changes nothing (stored value, subscribers and scheduler all unchanged, so
zero computations are dirtied or re-run); otherwise the value is updated,
every current subscriber is marked dirty, and a flush is requested
(`isBatching` holds afterwards). -/
theorem write_noop_or_notifies {α : Type} [DecidableEq α] (v : α)
    (sig : SignalState α) (s : SchedState) :
    (sig.value = v → writeSig v sig s = (sig, s)) ∧
    (sig.value ≠ v →
      (writeSig v sig s).1.value = v ∧
      (writeSig v sig s).1.subscribers = sig.subscribers ∧
      (∀ e ∈ sig.subscribers, e ∈ (writeSig v sig s).2.dirtyEffects) ∧
      (writeSig v sig s).2.isBatching = true) := by
  constructor
  · intro h
    simp [writeSig, h]
  · intro h
    rw [writeSig_changed v sig s h]
    refine ⟨rfl, rfl, ?_, flushQueueM_batching _⟩
    intro e he
    rw [flushQueueM_dirty]
    exact mem_foldl_addElem _ (Or.inr he)

/-- Witness for `write_noop_or_notifies`: an identical write (value 3 over
3) is a no-op; a changing write (4 over 3) updates and dirties. -/
theorem write_noop_or_notifies_witness :
    writeSig (3 : Int) ⟨3, [7]⟩ ⟨[], false, 0⟩ = (⟨3, [7]⟩, ⟨[], false, 0⟩) ∧
    (writeSig (4 : Int) ⟨3, [7]⟩ ⟨[], false, 0⟩).1.value = 4 ∧
    (7 ∈ (writeSig (4 : Int) ⟨3, [7]⟩ ⟨[], false, 0⟩).2.dirtyEffects) ∧
    (writeSig (4 : Int) ⟨3, [7]⟩ ⟨[], false, 0⟩).2.isBatching = true :=
  ⟨(write_noop_or_notifies 3 ⟨3, [7]⟩ ⟨[], false, 0⟩).1 rfl,
    ((write_noop_or_notifies 4 ⟨3, [7]⟩ ⟨[], false, 0⟩).2 (by decide)).1,
    ((write_noop_or_notifies 4 ⟨3, [7]⟩ ⟨[], false, 0⟩).2 (by decide)).2.2.1 7 (by decide),
    ((write_noop_or_notifies 4 ⟨3, [7]⟩ ⟨[], false, 0⟩).2 (by decide)).2.2.2⟩

/-! ## C6 / C10 — dynamic dependency re-tracking and symmetry -/

theorem cleanupE_deps (g : Graph) (e : Nat) : (cleanupE g e).deps e = [] := by
  simp [cleanupE]

theorem cleanupE_not_subscribed (g : Graph) (e : Nat)
    (hsym : ∀ c, e ∈ g.subs c → c ∈ g.deps e) :
    ∀ c, e ∉ (cleanupE g e).subs c := by
  intro c hc
  simp only [cleanupE] at hc
  split at hc
  · simp at hc
  · next h => exact h (hsym c hc)

theorem foldl_readCell_deps (e : Nat) (reads : List Nat) :
    ∀ (g : Graph) (c : Nat),
      c ∈ (reads.foldl (fun g2 c2 => readCell g2 c2 e) g).deps e ↔ c ∈ g.deps e ∨ c ∈ reads := by
  induction reads with
  | nil => intro g c; simp
  | cons r rs ih =>
    intro g c
    rw [List.foldl_cons, ih]
    simp only [readCell, if_pos rfl, ite_true, mem_addElem, List.mem_cons]
    tauto

theorem foldl_readCell_subs (e : Nat) (reads : List Nat) :
    ∀ (g : Graph) (c : Nat),
      e ∈ (reads.foldl (fun g2 c2 => readCell g2 c2 e) g).subs c ↔ e ∈ g.subs c ∨ c ∈ reads := by
  induction reads with
  | nil => intro g c; simp
  | cons r rs ih =>
    intro g c
    rw [List.foldl_cons, ih]
    by_cases hc : c = r
    · subst hc
      simp only [readCell, if_pos rfl, ite_true, mem_addElem, List.mem_cons]
      tauto
    · simp only [readCell, if_neg hc, List.mem_cons]
      tauto

/-- C6: given the subscription bookkeeping for effect `e` is consistent
(every subscriber-set membership is mirrored in its dependency set), after
any run of `e`'s body the dependency set equals exactly the set of cells
read during that run, and a cell is subscribed-to by `e` iff it was read
during that run — stale edges (e.g. a read guarded by a now-false
condition) are fully discarded. -/
theorem execute_retracks_dependencies (g : Graph) (e : Nat) (reads : List Nat)
    (hsym : ∀ c, e ∈ g.subs c → c ∈ g.deps e) :
    (∀ c, c ∈ (executeE g e reads).deps e ↔ c ∈ reads) ∧
    (∀ c, e ∈ (executeE g e reads).subs c ↔ c ∈ reads) := by
  constructor
  · intro c
    rw [executeE, foldl_readCell_deps, cleanupE_deps]
    simp
  · intro c
    rw [executeE, foldl_readCell_subs]
    have := cleanupE_not_subscribed g e hsym c
    constructor
    · rintro (h | h)
      · exact absurd h this
      · exact h
    · exact Or.inr

/-- Witness for `execute_retracks_dependencies`: a run that reads only
cell 1 after previously depending on cells 1 and 2. -/
theorem execute_retracks_dependencies_witness :
    (2 ∈ (executeE ⟨fun c => if c = 1 ∨ c = 2 then [0] else [],
        fun e => if e = 0 then [1, 2] else []⟩ 0 [1]).deps 0 ↔ 2 ∈ [1]) ∧
    (0 ∈ (executeE ⟨fun c => if c = 1 ∨ c = 2 then [0] else [],
        fun e => if e = 0 then [1, 2] else []⟩ 0 [1]).subs 2 ↔ 2 ∈ [1]) :=
  ⟨(execute_retracks_dependencies ⟨fun c => if c = 1 ∨ c = 2 then [0] else [],
      fun e => if e = 0 then [1, 2] else []⟩ 0 [1]
      (by
        intro c h
        by_cases hc : c = 1 ∨ c = 2
        · rcases hc with rfl | rfl <;> simp
        · simp only [if_neg hc] at h
          simp at h)).1 2,
    (execute_retracks_dependencies ⟨fun c => if c = 1 ∨ c = 2 then [0] else [],
      fun e => if e = 0 then [1, 2] else []⟩ 0 [1]
      (by
        intro c h
        by_cases hc : c = 1 ∨ c = 2
        · rcases hc with rfl | rfl <;> simp
        · simp only [if_neg hc] at h
          simp at h)).2 2⟩

theorem symm_readCell {g : Graph} (hs : Symm g) (c e : Nat) : Symm (readCell g c e) := by
  intro c2 e2
  by_cases hc : c2 = c <;> by_cases he : e2 = e
  · subst hc; subst he
    simp [readCell, mem_addElem]
  · subst hc
    have h0 := hs c2 e2
    simp [readCell, he, mem_addElem]
    tauto
  · subst he
    have h0 := hs c2 e2
    simp [readCell, hc, mem_addElem]
    tauto
  · have h0 := hs c2 e2
    simp [readCell, hc, he, mem_addElem]
    tauto

theorem symm_cleanupE {g : Graph} (hs : Symm g) (e : Nat) : Symm (cleanupE g e) := by
  intro c2 e2
  by_cases he : e2 = e <;> by_cases hcd : c2 ∈ g.deps e
  · subst he
    simp [cleanupE, hcd, List.mem_filter]
  · subst he
    have h0 := hs c2 e2
    simp [cleanupE, hcd, List.mem_filter]
    tauto
  · have h0 := hs c2 e2
    simp [cleanupE, he, hcd, List.mem_filter]
    tauto
  · have h0 := hs c2 e2
    simp [cleanupE, he, hcd, List.mem_filter]
    tauto

/-- C10: the subscription relation is symmetric at every quiescent point:
symmetry is preserved by a tracked read, by `cleanup`, and by a full
effect run (cleanup + re-tracking body); and after an effect's disposer
(`cleanup`) runs, no signal's subscriber set still contains it. -/
theorem subscription_symmetry (g : Graph) (c e : Nat) (reads : List Nat) (hs : Symm g) :
    Symm (readCell g c e) ∧ Symm (cleanupE g e) ∧ Symm (executeE g e reads) ∧
    (∀ c2, e ∉ (cleanupE g e).subs c2) := by
  refine ⟨symm_readCell hs c e, symm_cleanupE hs e, ?_, ?_⟩
  · rw [executeE]
    have : ∀ (rs : List Nat) (g2 : Graph), Symm g2 →
        Symm (rs.foldl (fun g3 c3 => readCell g3 c3 e) g2) := by
      intro rs
      induction rs with
      | nil => intro g2 h2; exact h2
      | cons r rs ih => intro g2 h2; exact ih _ (symm_readCell h2 r e)
    exact this reads _ (symm_cleanupE hs e)
  · exact cleanupE_not_subscribed g e (fun c2 h => (hs c2 e).mp h)

/-- Witness for `subscription_symmetry` on the empty graph. -/
theorem subscription_symmetry_witness :
    (0 : Nat) ∉ (cleanupE ⟨fun _ => [], fun _ => []⟩ 0).subs 1 :=
  (subscription_symmetry ⟨fun _ => [], fun _ => []⟩ 1 0 []
    (fun c e => iff_of_false (by simp) (by simp))).2.2.2 1

/-! ## C7 — dispose runs cleanups in reverse order, exactly once -/

theorem foldl_onCleanupM (regs : List Nat) :
    ∀ o : OwnerState, (regs.foldl onCleanupM o).cleanups = o.cleanups ++ regs := by
  induction regs with
  | nil => intro o; simp
  | cons r rs ih => intro o; rw [List.foldl_cons, ih]; simp [onCleanupM]

theorem runCleanupsLoop_take (l : List Nat) :
    ∀ k, k ≤ l.length → runCleanupsLoop l k = (l.take k).reverse := by
  intro k
  induction k with
  | zero => intro _; simp [runCleanupsLoop]
  | succ k ih =>
    intro hk
    have hlt : k < l.length := hk
    rw [runCleanupsLoop, ih (Nat.le_of_succ_le hk)]
    have h1 : l.getD k 0 = l[k] := by
      simp [List.getD, List.getElem?_eq_getElem hlt]
    have h2 : List.take (k + 1) l = List.take k l ++ [l[k]] := by
      rw [List.take_succ, List.getElem?_eq_getElem hlt]
      rfl
    rw [h1, h2, List.reverse_append]
    rfl

theorem runCleanupsLoop_reverse (l : List Nat) :
    runCleanupsLoop l l.length = l.reverse := by
  rw [runCleanupsLoop_take l l.length (Nat.le_refl _), List.take_length]

/-- C7: after any sequence of cleanup registrations, `dispose()` runs the
registered cleanups in strict reverse-registration order (the call trace is
the reverse of the registration list), each exactly once (counts
preserved), clears the cleanup list, and a repeated `dispose()` runs no
cleanup again. -/
theorem dispose_reverse_exactly_once (regs : List Nat) :
    (disposeM (regs.foldl onCleanupM ⟨[]⟩)).1 = regs.reverse ∧
    (∀ c, (disposeM (regs.foldl onCleanupM ⟨[]⟩)).1.count c = regs.count c) ∧
    (disposeM (regs.foldl onCleanupM ⟨[]⟩)).2.cleanups = [] ∧
    (disposeM (disposeM (regs.foldl onCleanupM ⟨[]⟩)).2).1 = [] := by
  have hc : (regs.foldl onCleanupM ⟨[]⟩).cleanups = regs := by
    rw [foldl_onCleanupM]; simp
  refine ⟨?_, ?_, rfl, rfl⟩
  · show runCleanupsLoop (regs.foldl onCleanupM ⟨[]⟩).cleanups
      (regs.foldl onCleanupM ⟨[]⟩).cleanups.length = regs.reverse
    rw [hc, runCleanupsLoop_reverse]
  · intro c
    show (runCleanupsLoop (regs.foldl onCleanupM ⟨[]⟩).cleanups
      (regs.foldl onCleanupM ⟨[]⟩).cleanups.length).count c = regs.count c
    rw [hc, runCleanupsLoop_reverse, List.count_reverse]

/-! ## C8 — active scope restored on every exit path -/

/-- C8: `createRoot(body)` restores the previously active owner whether
the body returns normally or throws (the `Bool` flag of `fn` marks a
thrown exception, handled by the same `finally`); and `dispose()` restores
the previously active owner even when one of the cleanups throws. -/
theorem scope_restore_all_paths {σ : Type} (fn : LcState σ → Bool × LcState σ)
    (rootId : Nat) (s : LcState σ) (throws : Nat → Bool) (o : OwnerState) :
    (createRootM fn rootId s).2.currentOwner = s.currentOwner ∧
    (disposeExcM throws o rootId s).2.2.currentOwner = s.currentOwner := by
  constructor
  · rfl
  · rfl

/-! ## C9 — malformed LIS input returns an empty result -/

/-- C9: `longestIncreasingSubsequence` returns `[]` (and, being total,
raises no exception) for every malformed input: null/undefined, a `length`
that is not a number, or a non-finite `length`. -/
theorem malformed_input_empty (threshold : Nat) (input : ArrayLikeM)
    (wb : Option (List Nat))
    (h : input = .nullish ∨ input = .badLength ∨ input = .nonFiniteLength) :
    longestIncreasingSubsequenceM threshold input wb = [] := by
  rcases h with h | h | h <;> subst h <;> rfl

/-- Witness for `malformed_input_empty` at a null/undefined input. -/
theorem malformed_input_empty_witness :
    longestIncreasingSubsequenceM 64 .nullish none = [] :=
  malformed_input_empty 64 .nullish none (Or.inl rfl)

/-! ## C3 — which item stays in place when ["a","b","c"] becomes ["c","b","a"] -/

/-- C3 fails on the code: for keys `["a","b","c"]` updated to
`["c","b","a"]` the old-position sequence is `[2,1,0]`, the engine's
computed LIS is `[2]` — the position of "a", not of "b" — so "b" (new
position 1) is physically moved by `insertBefore`, contradicting the claim
that "b" stays in place and is on the LIS. -/
theorem reorder_cba_counterexample :
    longestIncreasingSubsequenceM 64 (.arr [2, 1, 0]) none = [2] ∧
    (reconcileActions ["a", "b", "c"] ["c", "b", "a"]).getD 1 .insertNew = .move ∧
    (reconcileActions ["a", "b", "c"] ["c", "b", "a"]).getD 0 .insertNew = .move ∧
    (reconcileActions ["a", "b", "c"] ["c", "b", "a"]).getD 2 .insertNew = .stable := by
  decide

/-- C3 (amended): when the keyed reconciler updates `["a","b","c"]` to
`["c","b","a"]`, the item "a" (at new position 2) is on the computed LIS
and stays in place (is not physically moved), while "c" (new position 0)
and "b" (new position 1) are physically moved. -/
theorem reorder_cba_amended :
    reconcileActions ["a", "b", "c"] ["c", "b", "a"] = [.move, .move, .stable] := by
  decide

/-! ## LIS: binary search specification -/

theorem mid_bounds {lo hi : Nat} (h : lo < hi) : lo ≤ (lo + hi) / 2 ∧ (lo + hi) / 2 < hi := by
  constructor
  · exact (Nat.le_div_iff_mul_le (by omega)).mpr (by omega)
  · exact (Nat.div_lt_iff_lt_mul (by omega)).mpr (by omega)

theorem bsearchFuel_spec (seq : List Int) (tails : List Nat) (num : Int)
    (hsorted : ∀ j1 j2, j1 < j2 → j2 < tails.length →
      seq.getD (tails.getD j1 0) 0 < seq.getD (tails.getD j2 0) 0) :
    ∀ (fuel lo hi : Nat), hi ≤ tails.length → lo ≤ hi → hi - lo ≤ fuel →
      (∀ p, p < lo → seq.getD (tails.getD p 0) 0 < num) →
      (∀ p, hi ≤ p → p < tails.length → num ≤ seq.getD (tails.getD p 0) 0) →
      lo ≤ bsearchFuel seq tails num fuel lo hi ∧
      bsearchFuel seq tails num fuel lo hi ≤ hi ∧
      (∀ p, p < bsearchFuel seq tails num fuel lo hi →
        seq.getD (tails.getD p 0) 0 < num) ∧
      (∀ p, bsearchFuel seq tails num fuel lo hi ≤ p → p < tails.length →
        num ≤ seq.getD (tails.getD p 0) 0) := by
  intro fuel
  induction fuel with
  | zero =>
    intro lo hi hhi hlo hfuel hbelow habove
    have : lo = hi := by omega
    subst this
    exact ⟨Nat.le_refl _, Nat.le_refl _, hbelow, habove⟩
  | succ fuel ih =>
    intro lo hi hhi hlo hfuel hbelow habove
    rw [bsearchFuel]
    by_cases hlh : lo < hi
    · rw [if_pos hlh]
      obtain ⟨hm1, hm2⟩ := mid_bounds hlh
      by_cases hcmp : seq.getD (tails.getD ((lo + hi) / 2) 0) 0 < num
      · rw [if_pos hcmp]
        have hrec := ih ((lo + hi) / 2 + 1) hi hhi (by omega) (by omega) ?_ habove
        · exact ⟨by omega, hrec.2.1, hrec.2.2.1, hrec.2.2.2⟩
        · intro p hp
          rcases Nat.lt_or_ge p ((lo + hi) / 2) with h | h
          · exact lt_trans (hsorted p _ h (by omega)) hcmp
          · have : p = (lo + hi) / 2 := by omega
            rw [this]
            exact hcmp
      · rw [if_neg hcmp]
        have hrec := ih lo ((lo + hi) / 2) (by omega) (by omega) (by omega) hbelow ?_
        · exact ⟨hrec.1, by omega, hrec.2.2.1, hrec.2.2.2⟩
        · intro p hp hplen
          rcases Nat.lt_or_ge ((lo + hi) / 2) p with h | h
          · exact le_of_lt (lt_of_le_of_lt (le_of_not_lt hcmp) (hsorted _ p h hplen))
          · have : p = (lo + hi) / 2 := by omega
            rw [this]
            exact le_of_not_lt hcmp
    · rw [if_neg hlh]
      have : lo = hi := by omega
      subst this
      exact ⟨Nat.le_refl _, Nat.le_refl _, hbelow, habove⟩

/-- The binary search of the LIS engines: the returned position `lo` is the
leftmost `tails` position whose referenced value is `≥ num`. -/
theorem bsearch_spec (seq : List Int) (tails : List Nat) (num : Int)
    (hsorted : ∀ j1 j2, j1 < j2 → j2 < tails.length →
      seq.getD (tails.getD j1 0) 0 < seq.getD (tails.getD j2 0) 0) :
    bsearchGo seq tails num 0 tails.length ≤ tails.length ∧
    (∀ p, p < bsearchGo seq tails num 0 tails.length →
      seq.getD (tails.getD p 0) 0 < num) ∧
    (∀ p, bsearchGo seq tails num 0 tails.length ≤ p → p < tails.length →
      num ≤ seq.getD (tails.getD p 0) 0) := by
  have h := bsearchFuel_spec seq tails num hsorted (tails.length - 0) 0 tails.length
    (Nat.le_refl _) (Nat.zero_le _) (Nat.le_refl _) (by omega) (by omega)
  exact ⟨h.2.1, h.2.2.1, h.2.2.2⟩

theorem bsearchFuel_congr (seq : List Int) (num : Int) (t1 t2 : List Nat) (hi0 : Nat)
    (hagree : ∀ j, j < hi0 → t1.getD j 0 = t2.getD j 0) :
    ∀ (fuel lo hi : Nat), hi ≤ hi0 →
      bsearchFuel seq t1 num fuel lo hi = bsearchFuel seq t2 num fuel lo hi := by
  intro fuel
  induction fuel with
  | zero => intro lo hi _; rfl
  | succ fuel ih =>
    intro lo hi hhi
    rw [bsearchFuel, bsearchFuel]
    by_cases hlh : lo < hi
    · rw [if_pos hlh, if_pos hlh]
      obtain ⟨hm1, hm2⟩ := mid_bounds hlh
      rw [hagree ((lo + hi) / 2) (by omega)]
      by_cases hcmp : seq.getD (t2.getD ((lo + hi) / 2) 0) 0 < num
      · rw [if_pos hcmp, if_pos hcmp, ih _ hi hhi]
      · rw [if_neg hcmp, if_neg hcmp, ih lo _ (by omega)]
    · rw [if_neg hlh, if_neg hlh]

/-! ## LIS: list-access helpers -/

theorem getD_set_self {α : Type} (l : List α) (i : Nat) (v d : α) (h : i < l.length) :
    (l.set i v).getD i d = v := by
  rw [List.getD_eq_getElem _ _ (by simpa using h)]
  simp [List.getElem_set]

theorem getD_set_other {α : Type} (l : List α) (i j : Nat) (v d : α) (h : i ≠ j) :
    (l.set i v).getD j d = l.getD j d := by
  by_cases hj : j < l.length
  · rw [List.getD_eq_getElem _ _ (by simpa using hj), List.getD_eq_getElem _ _ hj]
    simp [List.getElem_set, h]
  · rw [List.getD_eq_default _ _ (by simpa using Nat.le_of_not_lt hj),
      List.getD_eq_default _ _ (Nat.le_of_not_lt hj)]

theorem getD_append_self {α : Type} (l : List α) (v d : α) :
    (l ++ [v]).getD l.length d = v := by
  rw [List.getD_append_right _ _ _ _ (Nat.le_refl _)]
  simp

/-! ## LIS: valid-chain lemmas -/

theorem validChain_drop_last {seq : List Int} {l : List Nat} {a : Nat}
    (h : ValidChain seq (l ++ [a])) : ValidChain seq l := by
  constructor
  · exact (List.pairwise_append.mp h.1).1
  · intro x hx
    exact h.2 x (List.mem_append.mpr (Or.inl hx))

theorem validChain_last_max {seq : List Int} {l : List Nat} {a : Nat}
    (h : ValidChain seq (l ++ [a])) :
    ∀ x ∈ l, x < a ∧ seq.getD x 0 < seq.getD a 0 := by
  intro x hx
  exact (List.pairwise_append.mp h.1).2.2 x hx a (by simp)

theorem validChain_length_le {seq : List Int} {l : List Nat} (h : ValidChain seq l) :
    l.length ≤ seq.length := by
  have hnd : l.Nodup := h.1.imp (fun hab => Nat.ne_of_lt hab.1)
  have hsub : l ⊆ List.range seq.length := by
    intro x hx
    exact List.mem_range.mpr (h.2 x hx).1
  have := (hnd.subperm hsub).length_le
  simpa using this

/-! ## LIS: predecessor chains and reconstruction -/

theorem supports_lt_length {seq preds : List Int} {k j : Nat}
    (h : Supports seq preds k j) : k < preds.length := by
  cases j with
  | zero => exact h.2.2
  | succ j => exact h.2.2.1

theorem supports_append (seq preds : List Int) (v : Int) :
    ∀ (j k : Nat), Supports seq preds k j → Supports seq (preds ++ [v]) k j := by
  intro j
  induction j with
  | zero =>
    intro k h
    refine ⟨h.1, h.2.1, ?_⟩
    have := h.2.2
    rw [List.length_append]
    omega
  | succ j ih =>
    intro k h
    obtain ⟨hk1, hk2, hk3, p, hp1, hp2, hp3, hp4⟩ := h
    refine ⟨hk1, hk2, by rw [List.length_append]; exact Nat.lt_of_lt_of_le hk3 (by omega), p, ?_, hp2, hp3, ih p hp4⟩
    rw [List.getD_append _ _ _ _ hk3]
    exact hp1

theorem reconstructGo_spec (seq preds : List Int) :
    ∀ (j k : Nat), Supports seq preds k j →
      ∃ l, reconstructGo preds (j + 1) (k : Int) = l ++ [k] ∧
        l.length = j ∧
        ValidChain seq (l ++ [k]) ∧
        ∀ x ∈ l, x < k ∧ seq.getD x 0 < seq.getD k 0 := by
  intro j
  induction j with
  | zero =>
    intro k h
    refine ⟨[], ?_, rfl, ?_, by simp⟩
    · simp [reconstructGo]
    · constructor
      · simp
      · intro x hx
        simp only [List.nil_append, List.mem_singleton] at hx
        subst hx
        exact ⟨h.1, h.2.1⟩
  | succ j ih =>
    intro j2
    intro h
    obtain ⟨hk1, hk2, hk3, p, hp1, hp2, hp3, hp4⟩ := h
    obtain ⟨l', e1, e2, e3, e4⟩ := ih p hp4
    refine ⟨l' ++ [p], ?_, by simp [e2], ?_, ?_⟩
    · rw [reconstructGo]
      rw [Int.toNat_natCast, hp1, e1, List.append_assoc]
    · constructor
      · rw [List.pairwise_append]
        refine ⟨e3.1, by simp, ?_⟩
        intro x hx y hy
        simp only [List.mem_singleton] at hy
        subst hy
        rcases List.mem_append.mp hx with hx | hx
        · obtain ⟨ha, hb⟩ := e4 x hx
          exact ⟨lt_trans ha hp2, lt_trans hb hp3⟩
        · simp only [List.mem_singleton] at hx
          subst hx
          exact ⟨hp2, hp3⟩
      · intro x hx
        rcases List.mem_append.mp hx with hx | hx
        · exact e3.2 x hx
        · simp only [List.mem_singleton] at hx
          subst hx
          exact ⟨hk1, hk2⟩
    · intro x hx
      rcases List.mem_append.mp hx with hx | hx
      · obtain ⟨ha, hb⟩ := e4 x hx
        exact ⟨lt_trans ha hp2, lt_trans hb hp3⟩
      · simp only [List.mem_singleton] at hx
        subst hx
        exact ⟨hp2, hp3⟩

/-! ## LIS: the loop invariant -/

theorem lisInv_init (seq : List Int) : LisInv seq 0 ⟨[], []⟩ := by
  refine ⟨rfl, ?_, Nat.le_refl 0, ?_, ?_, ?_, ?_⟩
  · intro j hj
    exact absurd hj (Nat.not_lt_zero j)
  · intro j hj
    exact absurd hj (Nat.not_lt_zero j)
  · intro j1 j2 _ hj
    exact absurd hj (Nat.not_lt_zero j2)
  · intro j hj
    exact absurd hj (Nat.not_lt_zero j)
  · intro l a _ hmem
    exact absurd (hmem a (by simp)) (Nat.not_lt_zero a)

theorem lisInv_insert (seq : List Int) (i : Nat) (st : LisSt)
    (inv : LisInv seq i st) (hi : i < seq.length) (hskip : seq.getD i 0 ≠ -1)
    (lo : Nat) (hlo_le : lo ≤ st.tails.length)
    (hbelow : ∀ p, p < lo → seq.getD (st.tails.getD p 0) 0 < seq.getD i 0)
    (habove : ∀ p, lo ≤ p → p < st.tails.length →
      seq.getD i 0 ≤ seq.getD (st.tails.getD p 0) 0) :
    LisInv seq (i + 1) (lisInsert st i lo) := by
  have hlen' : (lisInsert st i lo).tails.length =
      if lo = st.tails.length then st.tails.length + 1 else st.tails.length := by
    simp only [lisInsert]
    split
    · simp
    · simp
  have htails : ∀ j, j < (lisInsert st i lo).tails.length →
      (lisInsert st i lo).tails.getD j 0 = if j = lo then i else st.tails.getD j 0 := by
    intro j hj
    rw [hlen'] at hj
    simp only [lisInsert]
    by_cases hcase : lo = st.tails.length
    · rw [if_pos hcase]
      by_cases hjlo : j = lo
      · rw [if_pos hjlo, hjlo, hcase, getD_append_self]
      · rw [if_neg hjlo]
        have hjlen : j < st.tails.length := by
          rw [if_pos hcase] at hj
          omega
        rw [List.getD_append _ _ _ _ hjlen]
    · rw [if_neg hcase]
      have hlo_lt : lo < st.tails.length := by omega
      by_cases hjlo : j = lo
      · rw [if_pos hjlo, hjlo, getD_set_self _ _ _ _ hlo_lt]
      · rw [if_neg hjlo, getD_set_other _ _ _ _ _ (fun h => hjlo h.symm)]
  have hpredsLen' : (lisInsert st i lo).preds.length = i + 1 := by
    simp [lisInsert, inv.predsLen]
  have hpredsOld : ∀ j, j < i →
      (lisInsert st i lo).preds.getD j 0 = st.preds.getD j 0 := by
    intro j hj
    simp only [lisInsert]
    exact List.getD_append _ _ _ _ (by rw [inv.predsLen]; exact hj)
  have hpredsNew : (lisInsert st i lo).preds.getD i 0 =
      if lo = 0 then -1 else ((st.tails.getD (lo - 1) 0 : Nat) : Int) := by
    simp only [lisInsert]
    rw [← inv.predsLen, getD_append_self]
  have hsupport_new : Supports seq (lisInsert st i lo).preds i lo := by
    cases lo with
    | zero => exact ⟨hi, hskip, by rw [hpredsLen']; omega⟩
    | succ m =>
      have hm : m < st.tails.length := by omega
      refine ⟨hi, hskip, by rw [hpredsLen']; omega, st.tails.getD m 0, ?_, ?_, ?_, ?_⟩
      · rw [hpredsNew, if_neg (Nat.succ_ne_zero m)]
        simp
      · exact (inv.tailsMem m hm).1
      · exact hbelow m (Nat.lt_succ_self m)
      · exact supports_append seq st.preds _ m _ (inv.supports m hm)
  refine ⟨hpredsLen', ?_, ?_, ?_, ?_, ?_, ?_⟩
  · -- predsVals
    intro j hj
    rcases Nat.lt_or_ge j i with h | h
    · rw [hpredsOld j h]
      exact inv.predsVals j h
    · have : j = i := by omega
      subst this
      rw [hpredsNew]
      by_cases hlo0 : lo = 0
      · rw [if_pos hlo0]
        exact Or.inl rfl
      · rw [if_neg hlo0]
        refine Or.inr ⟨st.tails.getD (lo - 1) 0, rfl, ?_⟩
        have hl : lo - 1 < st.tails.length := by omega
        exact (inv.tailsMem (lo - 1) hl).1
  · -- tailsLen
    rw [hlen']
    have := inv.tailsLen
    split <;> omega
  · -- tailsMem
    intro j hj
    rw [htails j hj]
    by_cases hjlo : j = lo
    · rw [if_pos hjlo]
      exact ⟨Nat.lt_succ_self i, hskip⟩
    · rw [if_neg hjlo]
      have hjlen : j < st.tails.length := by
        rw [hlen'] at hj
        revert hj
        split <;> intro hj <;> omega
      obtain ⟨a1, a2⟩ := inv.tailsMem j hjlen
      exact ⟨Nat.lt_succ_of_lt a1, a2⟩
  · -- sorted
    intro j1 j2 hj12 hj2
    rw [htails j1 (lt_trans hj12 hj2), htails j2 hj2]
    by_cases h1 : j1 = lo <;> by_cases h2 : j2 = lo
    · exact absurd (h1.trans h2.symm) (Nat.ne_of_lt hj12)
    · rw [if_pos h1, if_neg h2]
      have hj2len : j2 < st.tails.length := by
        rw [hlen'] at hj2
        revert hj2
        split <;> intro hj2 <;> omega
      have hlo_lt : lo < st.tails.length := by omega
      exact lt_of_le_of_lt (habove lo (Nat.le_refl _) hlo_lt)
        (inv.sorted lo j2 (by omega) hj2len)
    · rw [if_neg h1, if_pos h2]
      exact hbelow j1 (by omega)
    · rw [if_neg h1, if_neg h2]
      have hj2len : j2 < st.tails.length := by
        rw [hlen'] at hj2
        revert hj2
        split <;> intro hj2 <;> omega
      exact inv.sorted j1 j2 hj12 hj2len
  · -- supports
    intro j hj
    rw [htails j hj]
    by_cases hjlo : j = lo
    · rw [if_pos hjlo, hjlo]
      exact hsupport_new
    · rw [if_neg hjlo]
      have hjlen : j < st.tails.length := by
        rw [hlen'] at hj
        revert hj
        split <;> intro hj <;> omega
      exact supports_append seq st.preds _ j _ (inv.supports j hjlen)
  · -- minimal
    intro l a hv hmem
    by_cases ha : a = i
    · subst ha
      rcases List.eq_nil_or_concat' l with hl | ⟨l', b, hl⟩
      · subst hl
        have h1len : 0 < (lisInsert st a lo).tails.length := by
          rw [hlen']
          split <;> omega
        refine ⟨?_, ?_⟩
        · simp only [List.length_nil]
          rw [hlen']
          split <;> omega
        · simp only [List.length_nil]
          rw [htails 0 h1len]
          by_cases h0lo : 0 = lo
          · rw [if_pos h0lo]
          · rw [if_neg h0lo]
            exact le_of_lt (hbelow 0 (by omega))
      · subst hl
        have hvl : ValidChain seq (l' ++ [b]) := validChain_drop_last hv
        have hlast := validChain_last_max hv
        have hmem' : ∀ x ∈ l' ++ [b], x < a := fun x hx => (hlast x hx).1
        obtain ⟨hm1, hm2⟩ := inv.minimal l' b hvl hmem'
        have hbi : seq.getD b 0 < seq.getD a 0 := (hlast b (by simp)).2
        have hlt_lo : l'.length < lo := by
          by_contra hge
          push_neg at hge
          have h3 := habove l'.length hge (by omega)
          exact absurd (lt_of_le_of_lt (le_trans h3 hm2) hbi) (lt_irrefl _)
        constructor
        · rw [hlen']
          simp only [List.length_append, List.length_singleton]
          split <;> omega
        · have hmlt : (l' ++ [b]).length < (lisInsert st a lo).tails.length := by
            rw [hlen']
            simp only [List.length_append, List.length_singleton]
            split <;> omega
          rw [htails _ hmlt]
          simp only [List.length_append, List.length_singleton]
          by_cases hmlo : l'.length + 1 = lo
          · rw [if_pos hmlo]
          · rw [if_neg hmlo]
            exact le_of_lt (hbelow _ (by omega))
    · have halt : a < i := by
        have := hmem a (by simp)
        omega
      have hmem2 : ∀ x ∈ l ++ [a], x < i := by
        intro x hx
        rcases List.mem_append.mp hx with hx2 | hx2
        · exact lt_trans (validChain_last_max hv x hx2).1 halt
        · simp only [List.mem_singleton] at hx2
          subst hx2
          exact halt
      obtain ⟨hm1, hm2⟩ := inv.minimal l a hv hmem2
      constructor
      · rw [hlen']
        split <;> omega
      · have hmlt : l.length < (lisInsert st i lo).tails.length := by
          rw [hlen']
          split <;> omega
        rw [htails _ hmlt]
        by_cases hmlo : l.length = lo
        · rw [if_pos hmlo]
          have hlo_lt : lo < st.tails.length := by omega
          rw [hmlo] at hm2
          exact le_trans (habove lo (Nat.le_refl lo) hlo_lt) hm2
        · rw [if_neg hmlo]
          exact hm2

theorem lisInv_step (seq : List Int) (i : Nat) (st : LisSt)
    (inv : LisInv seq i st) (hi : i < seq.length) :
    LisInv seq (i + 1) (lisStep seq st i) := by
  by_cases hskip : seq.getD i 0 = -1
  · rw [lisStep, if_pos hskip]
    refine ⟨by simp [inv.predsLen], ?_, Nat.le_succ_of_le inv.tailsLen, ?_, inv.sorted, ?_, ?_⟩
    · intro j hj
      rcases Nat.lt_or_ge j i with h | h
      · rw [List.getD_append _ _ _ _ (by rw [inv.predsLen]; exact h)]
        exact inv.predsVals j h
      · have hj2 : j = i := by omega
        subst hj2
        rw [← inv.predsLen, getD_append_self]
        exact Or.inl rfl
    · intro j hj
      obtain ⟨a1, a2⟩ := inv.tailsMem j hj
      exact ⟨Nat.lt_succ_of_lt a1, a2⟩
    · intro j hj
      exact supports_append seq st.preds (-1) j _ (inv.supports j hj)
    · intro l a hv hmem
      refine inv.minimal l a hv ?_
      intro x hx
      have hxi := hmem x hx
      rcases Nat.lt_or_ge x i with h | h
      · exact h
      · have hx2 : x = i := by omega
        subst hx2
        exact absurd hskip (hv.2 x (by simpa using hx)).2
  · rw [lisStep, if_neg hskip]
    obtain ⟨hlo_le, hbelow, habove⟩ := bsearch_spec seq st.tails (seq.getD i 0) inv.sorted
    exact lisInv_insert seq i st inv hi hskip _ hlo_le hbelow habove

theorem lisLoop_partial_inv (seq : List Int) :
    ∀ m, m ≤ seq.length → LisInv seq m ((List.range m).foldl (lisStep seq) ⟨[], []⟩) := by
  intro m
  induction m with
  | zero => intro _; exact lisInv_init seq
  | succ m ih =>
    intro hm
    rw [List.range_succ, List.foldl_append, List.foldl_cons, List.foldl_nil]
    exact lisInv_step seq m _ (ih (by omega)) (by omega)

theorem lisLoop_inv (seq : List Int) : LisInv seq seq.length (lisLoop seq) := by
  rw [lisLoop]
  exact lisLoop_partial_inv seq seq.length (Nat.le_refl _)

/-! ## LIS: full correctness of the small path -/

theorem lis_smallM_nil (seq : List Int) (h : seq.length = 0) : lis_smallM seq = [] := by
  simp [lis_smallM, h]

theorem lis_smallM_one (seq : List Int) (h : seq.length = 1) :
    lis_smallM seq = if seq.getD 0 0 = -1 then [] else [0] := by
  simp [lis_smallM, h]

theorem lis_smallM_main (seq : List Int) (h0 : seq.length ≠ 0) (h1 : seq.length ≠ 1) :
    lis_smallM seq = if (lisLoop seq).tails.length = 0 then []
      else reconstructGo (lisLoop seq).preds (lisLoop seq).tails.length
        (((lisLoop seq).tails.getD ((lisLoop seq).tails.length - 1) 0 : Nat) : Int) := by
  simp [lis_smallM, h0, h1]

/-- Full functional correctness of `lis_small`: every returned index is in
range and not skip-marked, the returned indices and their values are
strictly increasing, and the result length is maximal among all valid
strictly-increasing subsequences over non-skipped entries. -/
theorem lis_smallM_correct (seq : List Int) :
    (∀ x ∈ lis_smallM seq, x < seq.length ∧ seq.getD x 0 ≠ -1) ∧
    (lis_smallM seq).Pairwise (fun a b => a < b ∧ seq.getD a 0 < seq.getD b 0) ∧
    (∀ l, ValidChain seq l → l.length ≤ (lis_smallM seq).length) := by
  by_cases h0 : seq.length = 0
  · rw [lis_smallM_nil seq h0]
    refine ⟨by simp, by simp, ?_⟩
    intro l hl
    have := validChain_length_le hl
    simp only [List.length_nil]
    omega
  · by_cases h1 : seq.length = 1
    · rw [lis_smallM_one seq h1]
      by_cases hs : seq.getD 0 0 = -1
      · rw [if_pos hs]
        refine ⟨by simp, by simp, ?_⟩
        intro l hl
        simp only [List.length_nil, Nat.le_zero, List.length_eq_zero]
        cases l with
        | nil => rfl
        | cons x t =>
          exfalso
          obtain ⟨hx1, hx2⟩ := hl.2 x (List.mem_cons_self x t)
          have hx0 : x = 0 := by omega
          subst hx0
          exact hx2 hs
      · rw [if_neg hs]
        refine ⟨?_, by simp, ?_⟩
        · intro x hx
          simp only [List.mem_singleton] at hx
          subst hx
          exact ⟨by omega, hs⟩
        · intro l hl
          have := validChain_length_le hl
          simp only [List.length_singleton]
          omega
    · have inv := lisLoop_inv seq
      rw [lis_smallM_main seq h0 h1]
      by_cases hlen : (lisLoop seq).tails.length = 0
      · rw [if_pos hlen]
        refine ⟨by simp, by simp, ?_⟩
        intro l hl
        rcases List.eq_nil_or_concat' l with rfl | ⟨l', b, rfl⟩
        · simp
        · exfalso
          obtain ⟨hm1, _⟩ := inv.minimal l' b hl (fun x hx => (hl.2 x hx).1)
          omega
      · rw [if_neg hlen]
        have hpos : 0 < (lisLoop seq).tails.length := Nat.pos_of_ne_zero hlen
        have hsup := inv.supports ((lisLoop seq).tails.length - 1) (by omega)
        obtain ⟨l0, e1, e2, e3, e4⟩ := reconstructGo_spec seq (lisLoop seq).preds _ _ hsup
        have hlen1 : (lisLoop seq).tails.length - 1 + 1 = (lisLoop seq).tails.length := by
          omega
        rw [hlen1] at e1
        rw [e1]
        refine ⟨e3.2, e3.1, ?_⟩
        intro l hl
        rcases List.eq_nil_or_concat' l with rfl | ⟨l', b, rfl⟩
        · simp
        · obtain ⟨hm1, _⟩ := inv.minimal l' b hl (fun x hx => (hl.2 x hx).1)
          have he2 := e2
          simp only [List.length_append, List.length_singleton] at hm1 ⊢
          omega

/-! ## LIS: the large path simulates the small path -/

theorem sentinel_mod : SENTINEL % U32MOD = SENTINEL := by decide

theorem sentinel_succ : SENTINEL + 1 = U32MOD := by decide

theorem lisRel_step (seq : List Int) (hn : seq.length < U32MOD) (i : Nat)
    (stS : LisSt) (stL : LisStL) (inv : LisInv seq i stS)
    (rel : LisRel seq i stS stL) (hi : i < seq.length) :
    LisRel seq (i + 1) (lisStep seq stS i) (lisStepL seq stL i) := by
  have hiU : i % U32MOD = i := Nat.mod_eq_of_lt (by omega)
  by_cases hskip : seq.getD i 0 = -1
  · rw [lisStep, if_pos hskip, lisStepL, if_pos hskip]
    refine ⟨by simp [rel.predsLenL], rel.tailsLenL, rel.lenEq, rel.tailsEq, ?_⟩
    intro j hj
    rcases Nat.lt_or_ge j i with h | h
    · rw [getD_set_other _ _ _ _ _ (by omega),
        List.getD_append _ _ _ _ (by rw [inv.predsLen]; exact h)]
      exact rel.predsEq j h
    · have hj2 : j = i := by omega
      subst hj2
      rw [getD_set_self _ _ _ _ (by rw [rel.predsLenL]; exact hi),
        ← inv.predsLen, getD_append_self]
      simp [encodePred, sentinel_mod]
  · rw [lisStep, if_neg hskip, lisStepL, if_neg hskip]
    have hloeq : bsearchGo seq stL.tails (seq.getD i 0) 0 stL.len
        = bsearchGo seq stS.tails (seq.getD i 0) 0 stS.tails.length := by
      rw [rel.lenEq]
      exact bsearchFuel_congr seq (seq.getD i 0) stL.tails stS.tails stS.tails.length
        (fun j hj => rel.tailsEq j (by rw [rel.lenEq]; exact hj)) _ 0 stS.tails.length
        (Nat.le_refl _)
    obtain ⟨hlo_le, hbelow, habove⟩ := bsearch_spec seq stS.tails (seq.getD i 0) inv.sorted
    rw [hloeq]
    generalize hgen : bsearchGo seq stS.tails (seq.getD i 0) 0 stS.tails.length = lo
      at hlo_le hbelow habove ⊢
    have hlen_le_i : stS.tails.length ≤ i := inv.tailsLen
    refine ⟨by simp [lisInsertL, rel.predsLenL], by simp [lisInsertL, rel.tailsLenL], ?_, ?_, ?_⟩
    · -- lenEq
      simp only [lisInsertL, lisInsert]
      rw [rel.lenEq]
      by_cases hc : lo = stS.tails.length
      · rw [if_pos hc, if_pos hc]
        simp
      · rw [if_neg hc, if_neg hc]
        simp
    · -- tailsEq
      intro j hj
      simp only [lisInsertL] at hj ⊢
      rw [rel.lenEq] at hj
      simp only [lisInsert]
      by_cases hjlo : j = lo
      · rw [hjlo, getD_set_self _ _ _ _ (by rw [rel.tailsLenL]; omega), hiU]
        by_cases hc : lo = stS.tails.length
        · rw [if_pos hc, hc, getD_append_self]
        · rw [if_neg hc, getD_set_self _ _ _ _ (by omega)]
      · rw [getD_set_other _ _ _ _ _ (fun h => hjlo h.symm)]
        have hjlen : j < stS.tails.length := by
          revert hj
          split <;> intro hj <;> omega
        rw [rel.tailsEq j (by rw [rel.lenEq]; exact hjlen)]
        by_cases hc : lo = stS.tails.length
        · rw [if_pos hc, List.getD_append _ _ _ _ hjlen]
        · rw [if_neg hc, getD_set_other _ _ _ _ _ (fun h => hjlo h.symm)]
    · -- predsEq
      intro j hj
      simp only [lisInsertL, lisInsert]
      rcases Nat.lt_or_ge j i with h | h
      · rw [getD_set_other _ _ _ _ _ (by omega),
          List.getD_append _ _ _ _ (by rw [inv.predsLen]; exact h)]
        exact rel.predsEq j h
      · have hj2 : j = i := by omega
        subst hj2
        rw [getD_set_self _ _ _ _ (by rw [rel.predsLenL]; exact hi),
          ← inv.predsLen, getD_append_self]
        by_cases hlo0 : lo = 0
        · rw [hlo0]
          simp [encodePred, sentinel_mod]
        · have h0lt : 0 < lo := Nat.pos_of_ne_zero hlo0
          rw [if_pos h0lt, if_neg hlo0]
          have htl : stL.tails.getD (lo - 1) 0 = stS.tails.getD (lo - 1) 0 :=
            rel.tailsEq _ (by rw [rel.lenEq]; omega)
          rw [htl]
          have hval : stS.tails.getD (lo - 1) 0 < j :=
            (inv.tailsMem _ (by omega)).1
          rw [Nat.mod_eq_of_lt (by omega)]
          unfold encodePred
          rw [if_neg (by intro h2; omega), Int.toNat_natCast]

theorem lisLoopL_partial_rel (seq : List Int) (hn : seq.length < U32MOD)
    (preds0 tails0 : List Nat) (hp : preds0.length = seq.length)
    (ht : tails0.length = seq.length) :
    ∀ m, m ≤ seq.length →
      LisRel seq m ((List.range m).foldl (lisStep seq) ⟨[], []⟩)
        ((List.range m).foldl (lisStepL seq) ⟨preds0, tails0, 0⟩) := by
  intro m
  induction m with
  | zero =>
    intro _
    exact ⟨hp, ht, rfl, fun j hj => absurd hj (Nat.not_lt_zero j),
      fun j hj => absurd hj (Nat.not_lt_zero j)⟩
  | succ m ih =>
    intro hm
    rw [List.range_succ, List.foldl_append, List.foldl_append, List.foldl_cons,
      List.foldl_cons, List.foldl_nil, List.foldl_nil]
    exact lisRel_step seq hn m _ _ (lisLoop_partial_inv seq m (by omega))
      (ih (by omega)) (by omega)

theorem lisLoopL_rel (seq : List Int) (hn : seq.length < U32MOD)
    (preds0 tails0 : List Nat) (hp : preds0.length = seq.length)
    (ht : tails0.length = seq.length) :
    LisRel seq seq.length (lisLoop seq) (lisLoopL seq preds0 tails0) := by
  rw [lisLoop, lisLoopL]
  exact lisLoopL_partial_rel seq hn preds0 tails0 hp ht seq.length (Nat.le_refl _)

theorem reconstructGoL_eq (seq predsS : List Int) (predsL : List Nat)
    (hlen : predsS.length ≤ SENTINEL)
    (hagree : ∀ m, m < predsS.length → predsL.getD m 0 = encodePred (predsS.getD m 0)) :
    ∀ (j k : Nat), Supports seq predsS k j →
      reconstructGoL predsL (j + 1) (k : Int) = reconstructGo predsS (j + 1) (k : Int) := by
  intro j
  induction j with
  | zero =>
    intro k _
    simp [reconstructGoL, reconstructGo]
  | succ j ih =>
    intro k h
    obtain ⟨hk1, hk2, hk3, p, hp1, hp2, hp3, hp4⟩ := h
    rw [reconstructGoL, reconstructGo, Int.toNat_natCast]
    have hpred : predsL.getD k 0 = p := by
      rw [hagree k hk3, hp1]
      unfold encodePred
      rw [if_neg (by intro h2; omega), Int.toNat_natCast]
    have hpne : p ≠ SENTINEL := by
      have := supports_lt_length hp4
      omega
    rw [hpred, if_neg hpne, hp1, ih p hp4]

theorem chooseBuffer_length (n : Nat) (wb : Option (List Nat)) :
    2 * n ≤ (chooseBuffer n wb).length := by
  cases wb with
  | none => simp [chooseBuffer]
  | some b =>
    by_cases h : 2 * n ≤ b.length
    · simp [chooseBuffer, h]
    · simp [chooseBuffer, h]

/-- The large path computes exactly the same index list as the small path,
for any work buffer (used or ignored) and any input of fewer than `2^32`
elements. -/
theorem lis_largeM_eq_small (seq : List Int) (wb : Option (List Nat))
    (hn : seq.length < U32MOD) :
    lis_largeM seq wb = lis_smallM seq := by
  by_cases h0 : seq.length = 0
  · rw [lis_smallM_nil seq h0]
    simp [lis_largeM, h0]
  · by_cases h1 : seq.length = 1
    · rw [lis_smallM_one seq h1]
      simp [lis_largeM, h0, h1]
    · rw [lis_smallM_main seq h0 h1]
      simp only [lis_largeM, if_neg h0, if_neg h1]
      have hb := chooseBuffer_length seq.length wb
      have hrel : LisRel seq seq.length (lisLoop seq)
          (lisLoopL seq ((chooseBuffer seq.length wb).take seq.length)
            (((chooseBuffer seq.length wb).drop seq.length).take seq.length)) := by
        refine lisLoopL_rel seq hn _ _ ?_ ?_
        · rw [List.length_take]
          omega
        · rw [List.length_take, List.length_drop]
          omega
      have inv := lisLoop_inv seq
      by_cases hz : (lisLoop seq).tails.length = 0
      · rw [if_pos hz, if_pos (by rw [hrel.lenEq, hz])]
      · rw [if_neg hz, if_neg (by rw [hrel.lenEq]; exact hz)]
        have hpos : 0 < (lisLoop seq).tails.length := Nat.pos_of_ne_zero hz
        have hk : (lisLoopL seq ((chooseBuffer seq.length wb).take seq.length)
              (((chooseBuffer seq.length wb).drop seq.length).take seq.length)).tails.getD
              ((lisLoopL seq ((chooseBuffer seq.length wb).take seq.length)
                (((chooseBuffer seq.length wb).drop seq.length).take seq.length)).len - 1) 0
            = (lisLoop seq).tails.getD ((lisLoop seq).tails.length - 1) 0 := by
          rw [hrel.lenEq]
          exact hrel.tailsEq _ (by rw [hrel.lenEq]; omega)
        rw [hk, hrel.lenEq]
        have hsup := inv.supports ((lisLoop seq).tails.length - 1) (by omega)
        have h2 : (lisLoop seq).tails.length - 1 + 1 = (lisLoop seq).tails.length := by omega
        rw [← h2]
        refine reconstructGoL_eq seq (lisLoop seq).preds _ ?_ ?_ _ _ hsup
        · rw [inv.predsLen]
          have := sentinel_succ
          omega
        · intro m hm
          rw [inv.predsLen] at hm
          exact hrel.predsEq m hm

/-! ## C2 — the LIS dispatcher over the integer model -/

theorem dispatcher_eq_small (threshold : Nat) (elems : List Int) (wb : Option (List Nat))
    (hn : elems.length < U32MOD) :
    longestIncreasingSubsequenceM threshold (.arr elems) wb = lis_smallM elems := by
  by_cases h0 : elems.length = 0
  · rw [lis_smallM_nil elems h0]
    simp [longestIncreasingSubsequenceM, h0]
  · by_cases ht : elems.length < threshold
    · simp [longestIncreasingSubsequenceM, h0, ht]
    · simp [longestIncreasingSubsequenceM, h0, ht, lis_largeM_eq_small elems wb hn]

/-- Correctness of the dispatcher over the integer (NaN-free) model: for
any input of fewer than `2^32` entries (the range in which the large
path's unsigned buffers are faithful), any configured threshold and any
work buffer, the index list returned by `longestIncreasingSubsequence`
never references a skip-marked (`-1`) index, the values at consecutive
returned indices strictly increase, and the result length is maximal
among all valid strictly-increasing subsequences of the non-skipped
entries. -/
theorem lis_dispatcher_correct (threshold : Nat) (elems : List Int)
    (wb : Option (List Nat)) (hn : elems.length < U32MOD) :
    (∀ x ∈ longestIncreasingSubsequenceM threshold (.arr elems) wb,
      x < elems.length ∧ elems.getD x 0 ≠ -1) ∧
    (∀ i, 0 < i → i < (longestIncreasingSubsequenceM threshold (.arr elems) wb).length →
      elems.getD ((longestIncreasingSubsequenceM threshold (.arr elems) wb).getD (i - 1) 0) 0
        < elems.getD ((longestIncreasingSubsequenceM threshold (.arr elems) wb).getD i 0) 0) ∧
    (∀ l, ValidChain elems l →
      l.length ≤ (longestIncreasingSubsequenceM threshold (.arr elems) wb).length) := by
  rw [dispatcher_eq_small threshold elems wb hn]
  obtain ⟨ha, hb, hc⟩ := lis_smallM_correct elems
  refine ⟨ha, ?_, hc⟩
  intro i hi hlen
  have hp := List.pairwise_iff_getElem.mp hb (i - 1) i (by omega) hlen (by omega)
  rw [List.getD_eq_getElem _ _ (by omega : i - 1 < (lis_smallM elems).length),
    List.getD_eq_getElem _ _ hlen]
  exact hp.2

/-- Witness for `lis_dispatcher_correct` on `[3, -1, 1, 2]`, whose LIS is
`[2, 3]` (values 1 < 2): the chain `[2, 3]` shows the result has maximal
length 2. -/
theorem lis_dispatcher_correct_witness :
    (2 : Nat) ≤ (longestIncreasingSubsequenceM 64 (.arr [3, -1, 1, 2]) none).length :=
  (lis_dispatcher_correct 64 [3, -1, 1, 2] none (by decide)).2.2 [2, 3] (by decide)

/-- C2: the small-array implementation and the large-array implementation
(with or without a caller-supplied work buffer) return subsequences of
equal length on every input of fewer than `2^32` elements (in fact the
same index list, per `lis_largeM_eq_small`). -/
theorem lis_dual_path_equal_length (seq : List Int) (wb : Option (List Nat))
    (hn : seq.length < U32MOD) :
    (lis_largeM seq wb).length = (lis_smallM seq).length := by
  rw [lis_largeM_eq_small seq wb hn]

/-- Witness for `lis_dual_path_equal_length` on `[5, 1, 2]` with a
caller-supplied (garbage-filled) work buffer. -/
theorem lis_dual_path_equal_length_witness :
    (lis_largeM [5, 1, 2] (some [9, 9, 9, 9, 9, 9])).length = (lis_smallM [5, 1, 2]).length :=
  lis_dual_path_equal_length [5, 1, 2] (some [9, 9, 9, 9, 9, 9]) (by decide)

/-! ## LIS over JS numbers: NaN-free inputs reduce to the integer model -/

theorem decodeSeq_length (seq : List JSNum) : (decodeSeq seq).length = seq.length := by
  simp [decodeSeq]

theorem jslt_num (a b : Int) : jslt (.num a) (.num b) = true ↔ a < b := by
  simp [jslt]

theorem isNegOne_num (a : Int) : isNegOne (.num a) = true ↔ a = -1 := by
  simp [isNegOne]

theorem nanfree_getD (seq : List JSNum) (h : ∀ x ∈ seq, x ≠ JSNum.nan) (k : Nat)
    (hk : k < seq.length) :
    seq.getD k .nan = .num ((decodeSeq seq).getD k 0) := by
  have hk2 : k < (decodeSeq seq).length := by rw [decodeSeq_length]; exact hk
  rw [List.getD_eq_getElem _ _ hk, List.getD_eq_getElem _ _ hk2]
  have hmem : seq[k] ∈ seq := List.getElem_mem hk
  simp only [decodeSeq, List.getElem_map]
  cases hv : seq[k] with
  | num v => rfl
  | nan =>
    have := h seq[k] hmem
    rw [hv] at this
    exact absurd rfl this

theorem bsearchFuelJS_eq (seq : List JSNum) (h : ∀ x ∈ seq, x ≠ JSNum.nan)
    (tails : List Nat) (numv : Int) (hi0 : Nat)
    (htails : ∀ j, j < hi0 → tails.getD j 0 < seq.length) :
    ∀ (fuel lo hi : Nat), hi ≤ hi0 →
      bsearchFuelJS seq tails (.num numv) fuel lo hi
        = bsearchFuel (decodeSeq seq) tails numv fuel lo hi := by
  intro fuel
  induction fuel with
  | zero => intro lo hi _; rfl
  | succ fuel ih =>
    intro lo hi hhi
    rw [bsearchFuelJS, bsearchFuel]
    by_cases hlh : lo < hi
    · rw [if_pos hlh, if_pos hlh]
      obtain ⟨hm1, hm2⟩ := mid_bounds hlh
      have ht := htails ((lo + hi) / 2) (by omega)
      rw [nanfree_getD seq h _ ht]
      by_cases hcmp : (decodeSeq seq).getD (tails.getD ((lo + hi) / 2) 0) 0 < numv
      · rw [if_pos ((jslt_num _ _).mpr hcmp), if_pos hcmp, ih _ hi hhi]
      · rw [if_neg (fun hc => hcmp ((jslt_num _ _).mp hc)), if_neg hcmp,
          ih lo _ (by omega)]
    · rw [if_neg hlh, if_neg hlh]

theorem lisStepJS_eq (seq : List JSNum) (h : ∀ x ∈ seq, x ≠ JSNum.nan) (i : Nat)
    (st : LisSt) (inv : LisInv (decodeSeq seq) i st) (hi : i < seq.length) :
    lisStepJS seq st i = lisStep (decodeSeq seq) st i := by
  have hd := nanfree_getD seq h i hi
  rw [lisStepJS, lisStep, hd]
  by_cases hskip : (decodeSeq seq).getD i 0 = -1
  · rw [if_pos ((isNegOne_num _).mpr hskip), if_pos hskip]
  · rw [if_neg (fun hc => hskip ((isNegOne_num _).mp hc)), if_neg hskip]
    congr 1
    rw [bsearchGoJS, bsearchGo]
    refine bsearchFuelJS_eq seq h st.tails _ st.tails.length ?_ _ 0 st.tails.length
      (Nat.le_refl _)
    intro j hj
    have := (inv.tailsMem j hj).1
    omega

theorem lisLoopJS_eq (seq : List JSNum) (h : ∀ x ∈ seq, x ≠ JSNum.nan) :
    lisLoopJS seq = lisLoop (decodeSeq seq) := by
  have hlen := decodeSeq_length seq
  rw [lisLoopJS, lisLoop, hlen]
  have main : ∀ m, m ≤ seq.length →
      (List.range m).foldl (lisStepJS seq) ⟨[], []⟩
        = (List.range m).foldl (lisStep (decodeSeq seq)) ⟨[], []⟩ := by
    intro m
    induction m with
    | zero => intro _; rfl
    | succ m ih =>
      intro hm
      rw [List.range_succ, List.foldl_append, List.foldl_append, List.foldl_cons,
        List.foldl_cons, List.foldl_nil, List.foldl_nil, ih (by omega)]
      exact lisStepJS_eq seq h m _
        (lisLoop_partial_inv (decodeSeq seq) m (by rw [hlen]; omega)) (by omega)
  exact main seq.length (Nat.le_refl _)

theorem lis_smallJS_eq (seq : List JSNum) (h : ∀ x ∈ seq, x ≠ JSNum.nan) :
    lis_smallJS seq = lis_smallM (decodeSeq seq) := by
  have hlen := decodeSeq_length seq
  by_cases h0 : seq.length = 0
  · rw [lis_smallM_nil (decodeSeq seq) (by omega), lis_smallJS, if_pos h0]
  · by_cases h1 : seq.length = 1
    · rw [lis_smallM_one (decodeSeq seq) (by omega), lis_smallJS, if_neg h0, if_pos h1,
        nanfree_getD seq h 0 (by omega)]
      by_cases hs : (decodeSeq seq).getD 0 0 = -1
      · rw [if_pos ((isNegOne_num _).mpr hs), if_pos hs]
      · rw [if_neg (fun hc => hs ((isNegOne_num _).mp hc)), if_neg hs]
    · rw [lis_smallM_main (decodeSeq seq) (by omega) (by omega), lis_smallJS,
        if_neg h0, if_neg h1, lisLoopJS_eq seq h]

theorem lisStepLJS_eq (seq : List JSNum) (h : ∀ x ∈ seq, x ≠ JSNum.nan) (i : Nat)
    (stS : LisSt) (stL : LisStL) (inv : LisInv (decodeSeq seq) i stS)
    (rel : LisRel (decodeSeq seq) i stS stL) (hi : i < seq.length) :
    lisStepLJS seq stL i = lisStepL (decodeSeq seq) stL i := by
  have hd := nanfree_getD seq h i hi
  rw [lisStepLJS, lisStepL, hd]
  by_cases hskip : (decodeSeq seq).getD i 0 = -1
  · rw [if_pos ((isNegOne_num _).mpr hskip), if_pos hskip]
  · rw [if_neg (fun hc => hskip ((isNegOne_num _).mp hc)), if_neg hskip]
    congr 1
    rw [bsearchGoJS, bsearchGo]
    refine bsearchFuelJS_eq seq h stL.tails _ stL.len ?_ _ 0 stL.len (Nat.le_refl _)
    intro j hj
    rw [rel.tailsEq j hj]
    have := (inv.tailsMem j (by rw [← rel.lenEq]; exact hj)).1
    omega

theorem lisLoopLJS_eq (seq : List JSNum) (h : ∀ x ∈ seq, x ≠ JSNum.nan)
    (hn : seq.length < U32MOD) (preds0 tails0 : List Nat)
    (hp : preds0.length = seq.length) (ht : tails0.length = seq.length) :
    lisLoopLJS seq preds0 tails0 = lisLoopL (decodeSeq seq) preds0 tails0 := by
  have hlen := decodeSeq_length seq
  rw [lisLoopLJS, lisLoopL, hlen]
  have main : ∀ m, m ≤ seq.length →
      (List.range m).foldl (lisStepLJS seq) ⟨preds0, tails0, 0⟩
        = (List.range m).foldl (lisStepL (decodeSeq seq)) ⟨preds0, tails0, 0⟩ := by
    intro m
    induction m with
    | zero => intro _; rfl
    | succ m ih =>
      intro hm
      rw [List.range_succ, List.foldl_append, List.foldl_append, List.foldl_cons,
        List.foldl_cons, List.foldl_nil, List.foldl_nil, ih (by omega)]
      exact lisStepLJS_eq seq h m _ _
        (lisLoop_partial_inv (decodeSeq seq) m (by rw [hlen]; omega))
        (lisLoopL_partial_rel (decodeSeq seq) (by rw [hlen]; exact hn) preds0 tails0
          (by rw [hlen]; exact hp) (by rw [hlen]; exact ht) m (by rw [hlen]; omega))
        (by omega)
  exact main seq.length (Nat.le_refl _)

theorem lis_largeJS_eq (seq : List JSNum) (wb : Option (List Nat))
    (h : ∀ x ∈ seq, x ≠ JSNum.nan) (hn : seq.length < U32MOD) :
    lis_largeJS seq wb = lis_largeM (decodeSeq seq) wb := by
  have hlen := decodeSeq_length seq
  have hcb := chooseBuffer_length seq.length wb
  by_cases h0 : seq.length = 0
  · simp [lis_largeJS, lis_largeM, hlen, h0]
  · by_cases h1 : seq.length = 1
    · simp only [lis_largeJS, lis_largeM, hlen, if_neg h0, if_pos h1]
      rw [nanfree_getD seq h 0 (by omega)]
      by_cases hs : (decodeSeq seq).getD 0 0 = -1
      · rw [if_pos ((isNegOne_num _).mpr hs), if_pos hs]
      · rw [if_neg (fun hc => hs ((isNegOne_num _).mp hc)), if_neg hs]
    · simp only [lis_largeJS, lis_largeM, hlen, if_neg h0, if_neg h1]
      rw [lisLoopLJS_eq seq h hn _ _ ?_ ?_]
      · rw [List.length_take]
        omega
      · rw [List.length_take, List.length_drop]
        omega

theorem dispatcherJS_eq (threshold : Nat) (elems : List JSNum) (wb : Option (List Nat))
    (h : ∀ x ∈ elems, x ≠ JSNum.nan) (hn : elems.length < U32MOD) :
    longestIncreasingSubsequenceJS threshold (.arr elems) wb
      = longestIncreasingSubsequenceM threshold (.arr (decodeSeq elems)) wb := by
  have hlen := decodeSeq_length elems
  simp only [longestIncreasingSubsequenceJS, longestIncreasingSubsequenceM, hlen]
  by_cases h0 : elems.length = 0
  · rw [if_pos h0, if_pos h0]
  · rw [if_neg h0, if_neg h0]
    by_cases ht : elems.length < threshold
    · rw [if_pos ht, if_pos ht]
      exact lis_smallJS_eq elems h
    · rw [if_neg ht, if_neg ht]
      exact lis_largeJS_eq elems wb h hn

theorem validChainJS_iff (seq : List JSNum) (h : ∀ x ∈ seq, x ≠ JSNum.nan)
    (l : List Nat) : ValidChainJS seq l ↔ ValidChain (decodeSeq seq) l := by
  have hlen := decodeSeq_length seq
  constructor
  · rintro ⟨hp, hm⟩
    refine ⟨?_, ?_⟩
    · rw [List.pairwise_iff_getElem] at hp ⊢
      intro i j hi hj hij
      obtain ⟨h1, h2⟩ := hp i j hi hj hij
      refine ⟨h1, ?_⟩
      obtain ⟨hq1, _⟩ := hm (l[i]) (List.getElem_mem hi)
      obtain ⟨hq2, _⟩ := hm (l[j]) (List.getElem_mem hj)
      rw [nanfree_getD seq h _ hq1, nanfree_getD seq h _ hq2] at h2
      exact (jslt_num _ _).mp h2
    · intro x hx
      obtain ⟨h1, h2⟩ := hm x hx
      refine ⟨by omega, ?_⟩
      rw [nanfree_getD seq h x h1] at h2
      intro hc
      exact h2 (by rw [hc])
  · rintro ⟨hp, hm⟩
    refine ⟨?_, ?_⟩
    · rw [List.pairwise_iff_getElem] at hp ⊢
      intro i j hi hj hij
      obtain ⟨h1, h2⟩ := hp i j hi hj hij
      refine ⟨h1, ?_⟩
      obtain ⟨hq1, _⟩ := hm (l[i]) (List.getElem_mem hi)
      obtain ⟨hq2, _⟩ := hm (l[j]) (List.getElem_mem hj)
      rw [nanfree_getD seq h _ (by omega), nanfree_getD seq h _ (by omega)]
      exact (jslt_num _ _).mpr h2
    · intro x hx
      obtain ⟨h1, h2⟩ := hm x hx
      refine ⟨by omega, ?_⟩
      rw [nanfree_getD seq h x (by omega)]
      intro hc
      exact h2 (JSNum.num.inj hc)

/-! ## C1 — NaN refutes the original claim; NaN-free inputs satisfy it -/

/-- C1 fails on the code for a genuine numeric input containing NaN: on
`[5, NaN, 6, 7]`, `NaN === -1` is false so NaN is not skipped, and every
comparison against NaN is false, so NaN evicts index 0 from the tails and
index 2 restarts at predecessor "none"; the engine returns `[2, 3]`
(length 2) although `[0, 2, 3]` (values 5 < 6 < 7, none skip-marked) is a
valid strictly-increasing subsequence of length 3 — the claimed
maximality is violated. -/
theorem lis_nan_counterexample :
    longestIncreasingSubsequenceJS 64 (.arr [.num 5, .nan, .num 6, .num 7]) none = [2, 3] ∧
    ValidChainJS [.num 5, .nan, .num 6, .num 7] [0, 2, 3] ∧
    (longestIncreasingSubsequenceJS 64 (.arr [.num 5, .nan, .num 6, .num 7]) none).length
      < ([0, 2, 3] : List Nat).length := by
  decide

/-- C1 (amended): for every numeric input sequence containing no NaN
entry (and of fewer than `2^32` elements, the range in which the large
path's unsigned buffers are faithful), any configured threshold and any
work buffer: the index list returned by `longestIncreasingSubsequence`
never references a skip-marked (`-1`) index, the JS `<` comparison holds
between the values at consecutive returned indices, and the result length
is maximal among all valid strictly-increasing subsequences of the
non-skipped entries. -/
theorem lis_dispatcher_nanfree_correct (threshold : Nat) (elems : List JSNum)
    (wb : Option (List Nat)) (hfree : ∀ x ∈ elems, x ≠ JSNum.nan)
    (hn : elems.length < U32MOD) :
    (∀ x ∈ longestIncreasingSubsequenceJS threshold (.arr elems) wb,
      x < elems.length ∧ elems.getD x .nan ≠ .num (-1)) ∧
    (∀ i, 0 < i → i < (longestIncreasingSubsequenceJS threshold (.arr elems) wb).length →
      jslt (elems.getD
          ((longestIncreasingSubsequenceJS threshold (.arr elems) wb).getD (i - 1) 0) .nan)
        (elems.getD
          ((longestIncreasingSubsequenceJS threshold (.arr elems) wb).getD i 0) .nan)
        = true) ∧
    (∀ l, ValidChainJS elems l →
      l.length ≤ (longestIncreasingSubsequenceJS threshold (.arr elems) wb).length) := by
  have hlen := decodeSeq_length elems
  rw [dispatcherJS_eq threshold elems wb hfree hn]
  obtain ⟨ha, hb, hc⟩ := lis_dispatcher_correct threshold (decodeSeq elems) wb (by omega)
  refine ⟨?_, ?_, ?_⟩
  · intro x hx
    obtain ⟨h1, h2⟩ := ha x hx
    refine ⟨by omega, ?_⟩
    rw [nanfree_getD elems hfree x (by omega)]
    intro hc2
    exact h2 (JSNum.num.inj hc2)
  · intro i h1 h2
    have hp := hb i h1 h2
    have e1 : (longestIncreasingSubsequenceM threshold (.arr (decodeSeq elems)) wb).getD
        (i - 1) 0
        = (longestIncreasingSubsequenceM threshold (.arr (decodeSeq elems)) wb)[i - 1] :=
      List.getD_eq_getElem _ _ (by omega)
    have e2 : (longestIncreasingSubsequenceM threshold (.arr (decodeSeq elems)) wb).getD i 0
        = (longestIncreasingSubsequenceM threshold (.arr (decodeSeq elems)) wb)[i] :=
      List.getD_eq_getElem _ _ h2
    have hi1 : i - 1 <
        (longestIncreasingSubsequenceM threshold (.arr (decodeSeq elems)) wb).length := by
      omega
    obtain ⟨b1, _⟩ := ha _ (List.getElem_mem hi1)
    obtain ⟨b2, _⟩ := ha _ (List.getElem_mem h2)
    rw [e1, e2] at hp ⊢
    rw [nanfree_getD elems hfree _ (by omega), nanfree_getD elems hfree _ (by omega)]
    exact (jslt_num _ _).mpr hp
  · intro l hl
    exact hc l ((validChainJS_iff elems hfree l).mp hl)

/-- Witness for `lis_dispatcher_nanfree_correct` on the NaN-free input
`[3, -1, 1, 2]`, whose LIS is `[2, 3]`: the chain `[2, 3]` shows the
result has maximal length 2. -/
theorem lis_dispatcher_nanfree_correct_witness :
    (2 : Nat) ≤ (longestIncreasingSubsequenceJS 64
      (.arr [.num 3, .num (-1), .num 1, .num 2]) none).length :=
  (lis_dispatcher_nanfree_correct 64 [.num 3, .num (-1), .num 1, .num 2] none
    (by decide) (by decide)).2.2 [2, 3] (by decide)

end Aided
